import Mathlib

/-!
A verification development for the TileDB-Vector-Search core, shallowly
embedded in Lean 4.  Feature elements and scores are modelled as rationals
(exact arithmetic standing in for the C++ floating-point values); machine
integer indices are modelled as `Nat`.  While-loops are modelled with an
explicit fuel parameter; all properties proved about fueled loops are loop
invariants that hold for every fuel value.
-/

namespace TVS

/-- Feature vector: a fixed-length sequence of numeric elements
(src/src/include/detail/graph/vamana.h uses spans of float). -/
abbrev Vec := List ℚ

/-- Squared Euclidean distance between two equal-length vectors, from
`sum_of_squares` in the scoring kernels: the sum of squared element-wise
differences. -/
def sum_of_squares (a b : Vec) : ℚ :=
  (List.zipWith (fun x y => (x - y) * (x - y)) a b).sum

/-- A database of feature vectors, accessed by column index as in
`db[i]` over a column-major matrix. -/
abbrev DB := Nat → Vec

theorem sum_of_squares_nonneg (a b : Vec) : 0 ≤ sum_of_squares a b := by
  unfold sum_of_squares
  induction a generalizing b with
  | nil => simp
  | cons x xs ih =>
    cases b with
    | nil => simp
    | cons y ys =>
      simp only [List.zipWith_cons_cons, List.sum_cons]
      have h1 : 0 ≤ (x - y) * (x - y) := mul_self_nonneg _
      have h2 := ih ys
      linarith

theorem sum_of_squares_self (a : Vec) : sum_of_squares a a = 0 := by
  unfold sum_of_squares
  induction a with
  | nil => simp
  | cons x xs ih => simp [ih]

/-!
## Adjacency list

Modelled from the spec: `detail/graph/adj_list.h` is not among the provided
source files (only its callers and tests are).  Per spec section 4.7 the
adjacency list holds, per node, a bounded priority list of (score, id)
pairs; `out_edges(p)` returns the current list; `add_edge(p, q, s)` appends
(ignoring duplicate target ids); `clear()` empties the list.
-/

/-- Graph over nodes 0..N-1: entry p is the out-edge list of node p, each
edge a (score, target) pair. -/
abbrev AdjList := List (List (ℚ × Nat))

/-- The out-edge list of node p (`out_edges(p)`). -/
def out_edges (g : AdjList) (p : Nat) : List (ℚ × Nat) :=
  g.getD p []

/-- The out-degree of node p (`out_degree(p)`). -/
def out_degree (g : AdjList) (p : Nat) : Nat :=
  (out_edges g p).length

/-- The list of target ids of node p's out-edges. -/
def targets (g : AdjList) (p : Nat) : List Nat :=
  (out_edges g p).map Prod.snd

/-- Modelled from the spec: `add_edge(p, q, s)` appends the edge (score s,
target q) to node p's list, ignoring duplicate target ids (spec 4.7). -/
def add_edge (g : AdjList) (p q : Nat) (s : ℚ) : AdjList :=
  if q ∈ targets g p then g
  else g.set p (out_edges g p ++ [(s, q)])

/-- Modelled from the spec: `out_edges(p).clear()` empties node p's list. -/
def clear_edges (g : AdjList) (p : Nat) : AdjList :=
  g.set p []

/-- An empty adjacency list over n nodes (the `adj_list(num_vectors)`
constructor). -/
def empty_adj_list (n : Nat) : AdjList :=
  List.replicate n []

theorem out_edges_set_self (g : AdjList) (p : Nat) (l : List (ℚ × Nat))
    (hp : p < g.length) : out_edges (g.set p l) p = l := by
  simp [out_edges, List.getD, List.getElem?_set_self hp]

theorem out_edges_set_ne (g : AdjList) (p q : Nat) (l : List (ℚ × Nat))
    (hpq : q ≠ p) : out_edges (g.set p l) q = out_edges g q := by
  simp [out_edges, List.getD, List.getElem?_set_ne (fun h => hpq h.symm)]

theorem add_edge_other (g : AdjList) (p q r : Nat) (s : ℚ) (hr : r ≠ p) :
    out_edges (add_edge g p q s) r = out_edges g r := by
  unfold add_edge
  split
  · rfl
  · exact out_edges_set_ne g p r _ hr

/-!
## Fixed-capacity min-heap (`k_min_heap` / `fixed_min_heap`)

Modelled from the spec: `utils/fixed_min_heap.h` is not among the provided
source files.  Per spec section 4.3 the heap conceptually holds the k
smallest (score, id) pairs seen so far: `insert(score, id)` pushes when
size < capacity, otherwise replaces the current maximum when the new score
is smaller, otherwise is a no-op; the unique-id variant additionally
rejects an id already resident; drain returns entries in ascending score
order.  Contents are modelled as the underlying list of pairs; the
replaced maximum is the first element attaining the maximal score; drain
is an insertion-stable ascending sort by score.
-/

/-- Scan helper for `idxOfMax`: carries the best score seen, its index,
and the index of the next element. -/
def idxOfMaxAux (best : ℚ) (bestIdx cur : Nat) : List (ℚ × Nat) → Nat
  | [] => bestIdx
  | y :: ys =>
    if best < y.1 then idxOfMaxAux y.1 cur (cur + 1) ys
    else idxOfMaxAux best bestIdx (cur + 1) ys

/-- Index of the first element attaining the maximal score of a nonempty
heap list (0 on an empty list). -/
def idxOfMax (h : List (ℚ × Nat)) : Nat :=
  match h with
  | [] => 0
  | x :: xs => idxOfMaxAux x.1 0 1 xs

/-- Modelled from the spec: heap insert with capacity c.  Returns the new
contents and whether the pair entered the heap (push while below capacity,
otherwise replace the current maximum when the new score is smaller). -/
def heap_insert (c : Nat) (h : List (ℚ × Nat)) (s : ℚ) (i : Nat) :
    List (ℚ × Nat) × Bool :=
  if h.length < c then (h ++ [(s, i)], true)
  else if s < (h.getD (idxOfMax h) (0, 0)).1 then
    (h.set (idxOfMax h) (s, i), true)
  else (h, false)

/-- Modelled from the spec: the unique-id heap insert used by greedy
search; an id already resident in the heap is rejected. -/
def heap_insert_unique (c : Nat) (h : List (ℚ × Nat)) (s : ℚ) (i : Nat) :
    List (ℚ × Nat) × Bool :=
  if i ∈ h.map Prod.snd then (h, false) else heap_insert c h s i

/-- Pop the first element attaining the minimal score, returning it and
the remaining list in order.  Models `min_element` / the min-pop that
`greedy_search` performs on its frontier heap. -/
def popMin : List (ℚ × Nat) → Option ((ℚ × Nat) × List (ℚ × Nat))
  | [] => none
  | x :: xs =>
    match popMin xs with
    | none => some (x, [])
    | some (m, rest) =>
      if x.1 ≤ m.1 then some (x, xs)
      else some (m, x :: rest)

/-- Error kinds surfaced to callers (spec section 7). -/
inductive ErrKind where
  | invalidConfig : ErrKind
  | precondition : ErrKind
deriving DecidableEq

/-!
## Greedy truncated best-first search

Embedded from `greedy_search` in src/src/include/detail/graph/vamana.h
(lines 115-247).  The result heap Ell, the frontier q1 = Ell \ V and the
visited set V are threaded explicitly; the while-loop carries an explicit
fuel parameter (the C++ loop terminates because the visited set grows on
every non-skipped iteration; every theorem below holds for every fuel).
The `assert(L >= k_nn)` at entry is modelled as a fatal precondition
check, per spec section 4.7 failure semantics.
-/

/-- One run of the `while (!q1.empty())` loop of `greedy_search`:
state is (result heap, visited list, frontier q1). -/
def gsLoop (g : AdjList) (db : DB) (query : Vec) (L : Nat) :
    Nat → List (ℚ × Nat) → List Nat → List (ℚ × Nat) →
    List (ℚ × Nat) × List Nat
  | 0, result, visited, _ => (result, visited)
  | fuel + 1, result, visited, q1 =>
    match popMin q1 with
    | none => (result, visited)
    | some (estar, q1') =>
      let pstar := estar.2
      if pstar ∈ visited then
        gsLoop g db query L fuel result visited q1'
      else
        let visited' := pstar :: visited
        let q2 := result.foldl
          (fun acc e =>
            if e.2 ∈ visited' then acc
            else (heap_insert L acc e.1 e.2).1) []
        let step := (out_edges g pstar).foldl
          (fun (acc : List (ℚ × Nat) × List (ℚ × Nat)) e =>
            if e.2 ∈ visited' then acc
            else
              let score := sum_of_squares (db e.2) query
              let ins := heap_insert_unique L acc.1 score e.2
              if ins.2 then (ins.1, (heap_insert L acc.2 score e.2).1)
              else (ins.1, acc.2))
          (result, q2)
        gsLoop g db query L fuel step.1 visited' step.2

/-- Drain-sorted heap contents: ascending score order (spec 4.3),
realized as an insertion-stable sort. -/
def drain_sorted (h : List (ℚ × Nat)) : List (ℚ × Nat) :=
  List.insertionSort (fun a b => a.1 ≤ b.1) h

/-- `greedy_search(graph, db, source, query, k_nn, L)`: truncated
best-first search returning (top-k scores, top-k ids, visited set), or a
fatal precondition error when L < k_nn. -/
def greedy_search (g : AdjList) (db : DB) (source : Nat) (query : Vec)
    (k_nn L fuel : Nat) :
    Except ErrKind (List ℚ × List Nat × List Nat) :=
  if L < k_nn then .error .precondition
  else
    let s0 := sum_of_squares (db source) query
    let result0 := (heap_insert L [] s0 source).1
    let q10 := (heap_insert L [] s0 source).1
    let fin := gsLoop g db query L fuel result0 [] q10
    let top := (drain_sorted fin.1).take k_nn
    .ok (top.map Prod.fst, top.map Prod.snd, fin.2)

/-!
## Robust prune

Embedded from `robust_prune` in src/src/include/detail/graph/vamana.h
(lines 274-373).  The candidate map `V_map` (an unordered map built with
`try_emplace`) is modelled as an insertion-ordered association list; the
while-loop carries fuel `|V|`, which suffices because every iteration
drops the picked element from the working set when scores are
nonnegative.
-/

/-- `V_map.try_emplace(k, v)`: insert the binding only when the key is not
yet present. -/
def try_emplace (m : List (Nat × ℚ)) (k : Nat) (v : ℚ) : List (Nat × ℚ) :=
  if k ∈ m.map Prod.fst then m else m ++ [(k, v)]

/-- The working set V of `robust_prune`: candidates from `V_in` scored
against p, merged with the current out-edges of p, excluding p itself,
deduplicated by id (lines 289-314 of vamana.h). -/
def rpCandidates (g : AdjList) (db : DB) (p : Nat) (V_in : List Nat) :
    List (ℚ × Nat) :=
  let m1 := V_in.foldl
    (fun m v =>
      if v ≠ p then try_emplace m v (sum_of_squares (db v) (db p)) else m) []
  let m2 := (out_edges g p).foldl
    (fun m e => if e.2 ≠ p then try_emplace m e.2 e.1 else m) m1
  m2.map (fun kv => (kv.2, kv.1))

/-- The `while (!V.empty())` loop of `robust_prune`: pick the closest
candidate p*, add the edge p → p*, stop at degree R, and rebuild the
working set dropping every candidate q with α·d(p*, q) ≤ d(p, q) (the
rebuilt `new_V` also drops p itself). -/
def rpLoop (db : DB) (p : Nat) (alpha : ℚ) (R : Nat) :
    Nat → AdjList → List (ℚ × Nat) → AdjList
  | 0, g, _ => g
  | fuel + 1, g, V =>
    match popMin V with
    | none => g
    | some (estar, _) =>
      let g' := add_edge g p estar.2 estar.1
      if (out_edges g' p).length = R then g'
      else
        let V' := V.filter (fun e =>
          !(decide (alpha * sum_of_squares (db estar.2) (db e.2) ≤ e.1)) &&
            (e.2 != p))
        rpLoop db p alpha R fuel g' V'

/-- `robust_prune(graph, db, p, V, alpha, R)`: clears N_out(p) and
rebuilds it from the candidate working set. -/
def robust_prune (g : AdjList) (db : DB) (p : Nat) (V_in : List Nat)
    (alpha : ℚ) (R : Nat) : AdjList :=
  let V := rpCandidates g db p V_in
  rpLoop db p alpha R V.length (clear_edges g p) V

/-!
## The back-edge step of `vamana_index::train`

Embedded from src/src/include/detail/graph/vamana.h lines 575-601: after
`robust_prune` rewrites N_out(p), for each out-neighbor j of p the code
builds `tmp` with `auto tmp = std::vector<size_t>(graph_.out_degree(j) + 1)`
followed by push_backs — the vector constructor VALUE-INITIALIZES
out_degree(j) + 1 elements to zero, so `tmp` is out_degree(j) + 1 zeros
followed by p and the targets of N_out(j).
-/

/-- The `tmp` vector the code builds for neighbor j (vamana.h 579-583):
out_degree(j) + 1 zero entries, then p, then the targets of N_out(j). -/
def train_tmp (g : AdjList) (p j : Nat) : List Nat :=
  (List.replicate (out_degree g j + 1) 0 ++ [p]) ++ targets g j

/-- The `tmp` the spec describes for the same step: the set consisting of
p together with the current out-neighbors of j. -/
def spec_tmp (g : AdjList) (p j : Nat) : List Nat :=
  p :: targets g j

/-- One back-edge step of `train` for neighbor j (vamana.h 585-600): if
|tmp| > R_max run robust_prune on j with tmp, else add the edge (j, p). -/
def train_back_edge_step (db : DB) (alpha : ℚ) (R : Nat) (p : Nat)
    (g : AdjList) (j : Nat) : AdjList :=
  let tmp := train_tmp g p j
  if tmp.length > R then robust_prune g db j tmp alpha R
  else add_edge g j p (sum_of_squares (db p) (db j))

/-- The full back-edge pass over the out-neighbors of p (vamana.h
575-601). -/
def train_back_edges (db : DB) (alpha : ℚ) (R : Nat) (p : Nat)
    (g : AdjList) : AdjList :=
  (out_edges g p).foldl (fun acc e => train_back_edge_step db alpha R p acc e.2) g

/-!
## Invariants of robust_prune (claim C3 machinery)
-/

theorem popMin_mem :
    ∀ {l : List (ℚ × Nat)} {m : ℚ × Nat} {rest : List (ℚ × Nat)},
      popMin l = some (m, rest) → m ∈ l := by
  intro l
  induction l with
  | nil => intro m rest h; simp [popMin] at h
  | cons x xs ih =>
    intro m rest h
    unfold popMin at h
    rcases hx : popMin xs with _ | ⟨m', rest'⟩
    · rw [hx] at h
      simp at h
      simp [h.1]
    · rw [hx] at h
      by_cases hle : x.1 ≤ m'.1
      · simp [hle] at h
        simp [h.1]
      · simp [hle] at h
        right
        exact h.1 ▸ ih hx

theorem length_add_edge (g : AdjList) (p q : Nat) (s : ℚ) :
    (add_edge g p q s).length = g.length := by
  unfold add_edge
  split
  · rfl
  · exact List.length_set ..

theorem out_edges_add_edge_mem (g : AdjList) (p q : Nat) (s : ℚ)
    (hq : q ∈ targets g p) : add_edge g p q s = g := by
  simp [add_edge, hq]

theorem out_edges_add_edge_self (g : AdjList) (p q : Nat) (s : ℚ)
    (hp : p < g.length) (hq : q ∉ targets g p) :
    out_edges (add_edge g p q s) p = out_edges g p ++ [(s, q)] := by
  simp only [add_edge, if_neg hq]
  exact out_edges_set_self _ _ _ hp

theorem targets_add_edge_self (g : AdjList) (p q : Nat) (s : ℚ)
    (hp : p < g.length) (hq : q ∉ targets g p) :
    targets (add_edge g p q s) p = targets g p ++ [q] := by
  simp [targets, out_edges_add_edge_self g p q s hp hq]

/-- Generic foldl preservation helper. -/
theorem foldl_preserve {α β : Type} (P : β → Prop) (f : β → α → β)
    (hf : ∀ b a, P b → P (f b a)) :
    ∀ (l : List α) (b : β), P b → P (l.foldl f b) := by
  intro l
  induction l with
  | nil => intro b hb; exact hb
  | cons a as ih => intro b hb; exact ih (f b a) (hf b a hb)

theorem try_emplace_keys (m : List (Nat × ℚ)) (k : Nat) (v : ℚ) (p : Nat)
    (hm : ∀ x ∈ m, x.1 ≠ p) (hk : k ≠ p) :
    ∀ x ∈ try_emplace m k v, x.1 ≠ p := by
  intro x hx
  unfold try_emplace at hx
  split at hx
  · exact hm x hx
  · rcases List.mem_append.mp hx with h | h
    · exact hm x h
    · simp at h
      rw [h]
      exact hk

theorem rpCandidates_ne (g : AdjList) (db : DB) (p : Nat)
    (V_in : List Nat) : ∀ e ∈ rpCandidates g db p V_in, e.2 ≠ p := by
  unfold rpCandidates
  intro e he
  simp only [List.mem_map] at he
  obtain ⟨kv, hkv, hekv⟩ := he
  have h1 : ∀ x ∈ V_in.foldl
      (fun m v =>
        if v ≠ p then try_emplace m v (sum_of_squares (db v) (db p))
        else m) ([] : List (Nat × ℚ)), x.1 ≠ p :=
    foldl_preserve (fun m => ∀ x ∈ m, x.1 ≠ p)
      (fun m v =>
        if v ≠ p then try_emplace m v (sum_of_squares (db v) (db p)) else m)
      (by
        intro b a hb
        by_cases ha : a ≠ p
        · simpa [ha] using try_emplace_keys b a _ p hb ha
        · simpa [ha] using hb)
      V_in [] (by intro x hx; simp at hx)
  have h2 : ∀ x ∈ (out_edges g p).foldl
      (fun m e => if e.2 ≠ p then try_emplace m e.2 e.1 else m)
      (V_in.foldl
        (fun m v =>
          if v ≠ p then try_emplace m v (sum_of_squares (db v) (db p))
          else m) ([] : List (Nat × ℚ))), x.1 ≠ p :=
    foldl_preserve (fun m => ∀ x ∈ m, x.1 ≠ p)
      (fun m e => if e.2 ≠ p then try_emplace m e.2 e.1 else m)
      (by
        intro b a hb
        by_cases ha : a.2 ≠ p
        · simpa [ha] using try_emplace_keys b a.2 a.1 p hb ha
        · simpa [ha] using hb)
      (out_edges g p) _ h1
  have := h2 kv hkv
  rw [← hekv]
  exact this

theorem rpLoop_inv (db : DB) (p : Nat) (alpha : ℚ) (R : Nat) :
    ∀ (fuel : Nat) (V : List (ℚ × Nat)) (g : AdjList),
      p < g.length →
      (out_edges g p).length < R →
      (targets g p).Nodup →
      p ∉ targets g p →
      (∀ e ∈ V, e.2 ≠ p) →
      p ∉ targets (rpLoop db p alpha R fuel g V) p ∧
      (targets (rpLoop db p alpha R fuel g V) p).Nodup ∧
      (out_edges (rpLoop db p alpha R fuel g V) p).length ≤ R := by
  intro fuel
  induction fuel with
  | zero =>
    intro V g _ hlen hnd hself _
    exact ⟨hself, hnd, Nat.le_of_lt hlen⟩
  | succ n ih =>
    intro V g hp hlen hnd hself hV
    unfold rpLoop
    rcases hpop : popMin V with _ | ⟨estar, rest⟩
    · exact ⟨hself, hnd, Nat.le_of_lt hlen⟩
    · have hestar : estar ∈ V := popMin_mem hpop
      have hne : estar.2 ≠ p := hV estar hestar
      simp only []
      by_cases hmem : estar.2 ∈ targets g p
      · rw [out_edges_add_edge_mem g p estar.2 estar.1 hmem]
        have hcond : ¬ ((out_edges g p).length = R) := Nat.ne_of_lt hlen
        rw [if_neg hcond]
        apply ih
        · exact hp
        · exact hlen
        · exact hnd
        · exact hself
        · intro e he
          have : e ∈ V := List.mem_of_mem_filter he
          exact hV e this
      · have hout := out_edges_add_edge_self g p estar.2 estar.1 hp hmem
        have htgt := targets_add_edge_self g p estar.2 estar.1 hp hmem
        have hnd' : (targets (add_edge g p estar.2 estar.1) p).Nodup := by
          rw [htgt]
          simp [List.nodup_append, hnd, hmem]
        have hself' : p ∉ targets (add_edge g p estar.2 estar.1) p := by
          rw [htgt]
          intro hmem2
          rcases List.mem_append.mp hmem2 with h | h
          · exact hself h
          · simp at h
            exact hne h.symm
        have hlen' :
            (out_edges (add_edge g p estar.2 estar.1) p).length =
              (out_edges g p).length + 1 := by
          rw [hout]; simp
        by_cases hstop : (out_edges (add_edge g p estar.2 estar.1) p).length = R
        · rw [if_pos hstop]
          exact ⟨hself', hnd', Nat.le_of_eq hstop⟩
        · rw [if_neg hstop]
          apply ih
          · rw [length_add_edge]; exact hp
          · have : (out_edges g p).length + 1 ≤ R := Nat.succ_le_of_lt hlen
            rw [hlen']
            exact Nat.lt_of_le_of_ne this (hlen' ▸ hstop)
          · exact hnd'
          · exact hself'
          · intro e he
            have : e ∈ V := List.mem_of_mem_filter he
            exact hV e this

theorem clear_edges_out (g : AdjList) (p : Nat) (hp : p < g.length) :
    out_edges (clear_edges g p) p = [] :=
  out_edges_set_self g p [] hp

/-- C3: after robust_prune, the out-edge list of p has no self-loop, no
duplicate targets, and size at most R. -/
theorem robust_prune_inv_aux (g : AdjList) (db : DB) (p : Nat)
    (V_in : List Nat) (alpha : ℚ) (R : Nat) (hR : 1 ≤ R)
    (hp : p < g.length) :
    p ∉ targets (robust_prune g db p V_in alpha R) p ∧
    (targets (robust_prune g db p V_in alpha R) p).Nodup ∧
    (out_edges (robust_prune g db p V_in alpha R) p).length ≤ R := by
  unfold robust_prune
  apply rpLoop_inv db p alpha R
  · simpa [clear_edges] using hp
  · rw [clear_edges_out g p hp]
    simpa using hR
  · rw [targets, clear_edges_out g p hp]
    simp
  · rw [targets, clear_edges_out g p hp]
    simp
  · exact rpCandidates_ne g db p V_in

/-!
## Heap-head invariant for greedy search (claim C4 machinery)

When the query is the source vector itself, the pair (0, source) enters
the result heap first and is never evicted: eviction replaces the current
maximum with a strictly smaller score, and every score is a nonnegative
squared distance.
-/

/-- The invariant carried through the search: (0, src) sits at the head
of the heap list, and every resident score is nonnegative. -/
def HeapInv (src : Nat) (h : List (ℚ × Nat)) : Prop :=
  h.head? = some (0, src) ∧ ∀ e ∈ h, 0 ≤ e.1

theorem heap_insert_inv (c : Nat) (h : List (ℚ × Nat)) (s' : ℚ)
    (i src : Nat) (hinv : HeapInv src h) (hs : 0 ≤ s') :
    HeapInv src (heap_insert c h s' i).1 := by
  obtain ⟨hh, hnn⟩ := hinv
  have hne : h ≠ [] := by
    intro hempty
    rw [hempty] at hh
    simp at hh
  unfold heap_insert
  by_cases hlen : h.length < c
  · rw [if_pos hlen]
    refine ⟨?_, ?_⟩
    · cases h with
      | nil => exact absurd rfl hne
      | cons x t => simpa using hh
    · intro e he
      rcases List.mem_append.mp he with h1 | h1
      · exact hnn e h1
      · simp at h1
        rw [h1]
        exact hs
  · rw [if_neg hlen]
    by_cases hj : idxOfMax h = 0
    · have hm : (h.getD (idxOfMax h) (0, 0)).1 = 0 := by
        rw [hj]
        cases h with
        | nil => exact absurd rfl hne
        | cons x t =>
          have hx : x = (0, src) := by simpa using hh
          simp [hx]
      by_cases hrep : s' < (h.getD (idxOfMax h) (0, 0)).1
      · rw [hm] at hrep
        exact absurd hrep (not_lt.mpr hs)
      · rw [if_neg hrep]
        exact ⟨hh, hnn⟩
    · by_cases hrep : s' < (h.getD (idxOfMax h) (0, 0)).1
      · rw [if_pos hrep]
        refine ⟨?_, ?_⟩
        · rw [List.head?_eq_getElem?, List.getElem?_set_ne hj]
          rw [← List.head?_eq_getElem?]
          exact hh
        · intro e he
          rcases List.mem_or_eq_of_mem_set he with h1 | h1
          · exact hnn e h1
          · rw [h1]
            exact hs
      · rw [if_neg hrep]
        exact ⟨hh, hnn⟩

theorem heap_insert_unique_inv (c : Nat) (h : List (ℚ × Nat)) (s' : ℚ)
    (i src : Nat) (hinv : HeapInv src h) (hs : 0 ≤ s') :
    HeapInv src (heap_insert_unique c h s' i).1 := by
  unfold heap_insert_unique
  split
  · exact hinv
  · exact heap_insert_inv c h s' i src hinv hs

theorem gsLoop_inv (g : AdjList) (db : DB) (query : Vec) (L src : Nat) :
    ∀ (fuel : Nat) (result : List (ℚ × Nat)) (visited : List Nat)
      (q1 : List (ℚ × Nat)), HeapInv src result →
      HeapInv src (gsLoop g db query L fuel result visited q1).1 := by
  intro fuel
  induction fuel with
  | zero => intro result visited q1 hinv; exact hinv
  | succ n ih =>
    intro result visited q1 hinv
    unfold gsLoop
    rcases hpop : popMin q1 with _ | ⟨estar, q1'⟩
    · exact hinv
    · simp only []
      by_cases hvis : estar.2 ∈ visited
      · rw [if_pos hvis]
        exact ih result visited q1' hinv
      · rw [if_neg hvis]
        apply ih
        have : ∀ (l : List (ℚ × Nat)) (acc : List (ℚ × Nat) × List (ℚ × Nat)),
            HeapInv src acc.1 →
            HeapInv src (l.foldl
              (fun (acc : List (ℚ × Nat) × List (ℚ × Nat)) e =>
                if e.2 ∈ estar.2 :: visited then acc
                else
                  let score := sum_of_squares (db e.2) query
                  let ins := heap_insert_unique L acc.1 score e.2
                  if ins.2 then (ins.1, (heap_insert L acc.2 score e.2).1)
                  else (ins.1, acc.2))
              acc).1 := by
          intro l
          induction l with
          | nil => intro acc hacc; exact hacc
          | cons e es ihe =>
            intro acc hacc
            simp only [List.foldl_cons]
            apply ihe
            by_cases hev : e.2 ∈ estar.2 :: visited
            · simpa [hev] using hacc
            · simp only [hev, if_neg, if_false]
              have hu := heap_insert_unique_inv L acc.1
                (sum_of_squares (db e.2) query) e.2 src hacc
                (sum_of_squares_nonneg _ _)
              split
              · exact hu
              · exact hu
        exact this (out_edges g estar.2) _ hinv

theorem drain_sorted_head (l : List (ℚ × Nat)) (src : Nat)
    (hinv : HeapInv src l) : (drain_sorted l).head? = some (0, src) := by
  obtain ⟨hh, hnn⟩ := hinv
  cases l with
  | nil => simp at hh
  | cons x t =>
    have hx : x = (0, src) := by simpa using hh
    unfold drain_sorted
    have : List.insertionSort (fun a b : ℚ × Nat => a.1 ≤ b.1) (x :: t) =
        List.orderedInsert (fun a b : ℚ × Nat => a.1 ≤ b.1) x
          (List.insertionSort (fun a b : ℚ × Nat => a.1 ≤ b.1) t) := rfl
    rw [this]
    rcases hsort : List.insertionSort (fun a b : ℚ × Nat => a.1 ≤ b.1) t with
      _ | ⟨b, bs⟩
    · simp [List.orderedInsert, hx]
    · have hb : b ∈ t := by
        have := List.mem_insertionSort
          (r := fun a b : ℚ × Nat => a.1 ≤ b.1) (l := t) (x := b)
        rw [hsort] at this
        exact this.mp (by simp)
      have hb0 : (0 : ℚ) ≤ b.1 := hnn b (List.mem_cons_of_mem x hb)
      have hcond : x.1 ≤ b.1 := by rw [hx]; exact hb0
      simp [List.orderedInsert, hcond, hx, hb0]

/-- C3: for every graph, database, node p of the graph, candidate set,
alpha at least 1 and degree bound R at least 1, after robust_prune the
out-edge list of p has no self-loop, no duplicate target ids, and size at
most R. -/
theorem c3_robust_prune_invariants (g : AdjList) (db : DB) (p : Nat)
    (V_in : List Nat) (alpha : ℚ) (R : Nat)
    (_halpha : 1 ≤ alpha) (hR : 1 ≤ R) (hp : p < g.length) :
    p ∉ targets (robust_prune g db p V_in alpha R) p ∧
    (targets (robust_prune g db p V_in alpha R) p).Nodup ∧
    (out_edges (robust_prune g db p V_in alpha R) p).length ≤ R :=
  robust_prune_inv_aux g db p V_in alpha R hR hp

/-- Witness for C3 at a concrete graph, database, node and candidate
set. -/
theorem c3_robust_prune_invariants_witness :
    (1 : ℚ) ≤ 1 ∧ 1 ≤ 2 ∧ 0 < ([[(9, 2)], [], []] : AdjList).length ∧
    (0 ∉ targets
        (robust_prune [[(9, 2)], [], []] (fun i => [(i : ℚ)]) 0 [1, 0, 2] 1 2)
        0 ∧
      (targets
        (robust_prune [[(9, 2)], [], []] (fun i => [(i : ℚ)]) 0 [1, 0, 2] 1 2)
        0).Nodup ∧
      (out_edges
        (robust_prune [[(9, 2)], [], []] (fun i => [(i : ℚ)]) 0 [1, 0, 2] 1 2)
        0).length ≤ 2) :=
  ⟨by norm_num, by decide, by decide,
    c3_robust_prune_invariants [[(9, 2)], [], []] (fun i => [(i : ℚ)]) 0
      [1, 0, 2] 1 2 (by norm_num) (by decide) (by decide)⟩

theorem head?_take_of_pos {α : Type} (l : List α) (k : Nat) (hk : 0 < k) :
    (l.take k).head? = l.head? := by
  cases k with
  | zero => exact absurd hk (by simp)
  | succ n => cases l <;> simp

/-- C4: searching a graph from any source s with the source's own vector
as query (and L at least k at least 1) succeeds and returns s as the
first element of the top-k, with reported score 0. -/
theorem c4_greedy_search_self_first (g : AdjList) (db : DB) (s : Nat)
    (k L fuel : Nat) (hk : 1 ≤ k) (hL : k ≤ L) :
    ∃ scores ids visited,
      greedy_search g db s (db s) k L fuel =
        Except.ok (scores, ids, visited) ∧
      ids.head? = some s ∧ scores.head? = some 0 := by
  have hnotlt : ¬ (L < k) := not_lt.mpr hL
  have h0L : 0 < L := Nat.lt_of_lt_of_le hk hL
  have hs0 : sum_of_squares (db s) (db s) = 0 := sum_of_squares_self _
  have hres0 :
      (heap_insert L [] (sum_of_squares (db s) (db s)) s).1 =
        [(sum_of_squares (db s) (db s), s)] := by
    unfold heap_insert
    simp [h0L]
  have hinv0 : HeapInv s (heap_insert L [] (sum_of_squares (db s) (db s)) s).1 := by
    rw [hres0]
    constructor
    · simp [hs0]
    · intro e he
      simp at he
      rw [he]
      simp [hs0]
  have hfin : HeapInv s
      (gsLoop g db (db s) L fuel
        (heap_insert L [] (sum_of_squares (db s) (db s)) s).1 []
        (heap_insert L [] (sum_of_squares (db s) (db s)) s).1).1 :=
    gsLoop_inv g db (db s) L s fuel _ [] _ hinv0
  have hdr := drain_sorted_head _ s hfin
  have heq : greedy_search g db s (db s) k L fuel =
      Except.ok
        (((drain_sorted
            (gsLoop g db (db s) L fuel
              (heap_insert L [] (sum_of_squares (db s) (db s)) s).1 []
              (heap_insert L [] (sum_of_squares (db s) (db s)) s).1).1).take
            k).map Prod.fst,
          ((drain_sorted
            (gsLoop g db (db s) L fuel
              (heap_insert L [] (sum_of_squares (db s) (db s)) s).1 []
              (heap_insert L [] (sum_of_squares (db s) (db s)) s).1).1).take
            k).map Prod.snd,
          (gsLoop g db (db s) L fuel
            (heap_insert L [] (sum_of_squares (db s) (db s)) s).1 []
            (heap_insert L [] (sum_of_squares (db s) (db s)) s).1).2) := by
    unfold greedy_search
    rw [if_neg hnotlt]
  refine ⟨_, _, _, heq, ?_, ?_⟩
  · rw [List.head?_map, head?_take_of_pos _ k hk, hdr]
    rfl
  · rw [List.head?_map, head?_take_of_pos _ k hk, hdr]
    rfl

/-- Witness for C4 at a concrete graph, database and source. -/
theorem c4_greedy_search_self_first_witness :
    1 ≤ 1 ∧ 1 ≤ 2 ∧
    (∃ scores ids visited,
      greedy_search [[(2, 1)], []] (fun i => [(i : ℚ)]) 0
          ((fun i => [(i : ℚ)]) 0) 1 2 4 =
        Except.ok (scores, ids, visited) ∧
      ids.head? = some 0 ∧ scores.head? = some 0) :=
  ⟨by decide, by decide,
    c4_greedy_search_self_first [[(2, 1)], []] (fun i => [(i : ℚ)]) 0 1 2 4
      (by decide) (by decide)⟩

/-- C9: calling greedy_search with search-list size L strictly smaller
than the result size k is a fatal precondition violation: the call errors
out instead of returning a top-k result. -/
theorem c9_greedy_search_L_lt_k_fatal (g : AdjList) (db : DB)
    (source : Nat) (query : Vec) (k_nn L fuel : Nat) (h : L < k_nn) :
    greedy_search g db source query k_nn L fuel =
      Except.error ErrKind.precondition := by
  unfold greedy_search
  rw [if_pos h]

/-- Witness for C9 at a concrete graph, database and query. -/
theorem c9_greedy_search_L_lt_k_fatal_witness :
    1 < 2 ∧
    greedy_search [[]] (fun _ => []) 0 [] 2 1 5 =
      Except.error ErrKind.precondition :=
  ⟨by decide, c9_greedy_search_L_lt_k_fatal [[]] (fun _ => []) 0 [] 2 1 5
      (by decide)⟩

/-!
## Claim C1: the back-edge tmp construction in train

The code constructs `tmp` with the std::vector size constructor, which
value-initializes out_degree(j) + 1 entries to zero before the pushes;
the doc comment of `train` (quoting the Filtered Fresh DiskANN paper) and
the spec describe tmp as exactly p together with N_out(j).  The two
disagree both on the contents of tmp and on which branch is taken.
-/

/-- Concrete graph for the C1 evaluation: node 1 has the single out-edge
to node 2 with score 1 (its squared distance under c1db). -/
def c1g : AdjList := [[], [(1, 2)], [], []]

/-- Concrete database for the C1 evaluation: vectors 5, 0, 1, 10 in one
dimension. -/
def c1db : DB := fun i => [[(5 : ℚ)], [0], [1], [10]].getD i []

/-- C1: at a concrete graph with out_degree(j) = 1 and R_max = 3, the
code-built tmp is [0, 0, p, 2] of size 4 (so the robust_prune branch is
taken and N_out(1) becomes [(1, 2)]), while the claim's tmp is the
two-element set consisting of p and the neighbor (so |N_out(j)| + 1 ≤
R_max and the add_edge branch would be taken, yielding N_out(1) =
[(1, 2), (100, 3)]). -/
theorem c1_train_back_edge_divergence :
    train_tmp c1g 3 1 = [0, 0, 3, 2] ∧
    spec_tmp c1g 3 1 = [3, 2] ∧
    out_degree c1g 1 + 1 ≤ 3 ∧
    (train_tmp c1g 3 1).length > 3 ∧
    out_edges (train_back_edge_step c1db 1 3 3 c1g 1) 1 = [(1, 2)] ∧
    out_edges (add_edge c1g 1 3 (sum_of_squares (c1db 3) (c1db 1))) 1 =
      [(1, 2), (100, 3)] ∧
    out_edges (train_back_edge_step c1db 1 3 3 c1g 1) 1 ≠
      out_edges (add_edge c1g 1 3 (sum_of_squares (c1db 3) (c1db 1))) 1 := by
  norm_num [c1g, c1db, train_tmp, spec_tmp, out_degree, out_edges, targets,
    train_back_edge_step, robust_prune, rpCandidates, rpLoop, try_emplace,
    clear_edges, add_edge, popMin, sum_of_squares, List.replicate_succ,
    List.replicate_zero, List.getD, List.foldl_cons, List.foldl_nil]

/-!
## K-means Lloyd iteration (claim C2)

Embedded from `kmeans_index::train_no_init` in src/unnamed/part_000
(lines 217-270).  `qv_partition` lives in detail/flat/qv.h, which is not
among the provided sources, and is modelled from the spec.
-/

/-- Scan helper returning the index of the first minimal value. -/
def argminAux (best : ℚ) (bestIdx cur : Nat) : List ℚ → Nat
  | [] => bestIdx
  | y :: ys =>
    if y < best then argminAux y cur (cur + 1) ys
    else argminAux best bestIdx (cur + 1) ys

/-- Modelled from the spec: `detail::flat::qv_partition` (detail/flat/qv.h
is not among the provided sources) assigns a vector to its nearest
centroid (spec 4.5 step 1); ties resolve to the first minimizing index. -/
def qv_partition_one (centroids : List Vec) (v : Vec) : Nat :=
  match centroids.map (fun c => sum_of_squares c v) with
  | [] => 0
  | s :: ss => argminAux s 0 1 ss

/-- Element-wise vector addition (the accumulation `centroid[j] +=
vector[j]`). -/
def vecAdd (a b : Vec) : Vec := List.zipWith (· + ·) a b

/-- One Lloyd iteration of `train_no_init` (part_000 lines 222-269):
partition-assign every training vector, reset centroids and degrees to
zero, accumulate each vector into its centroid, and divide each centroid
by its degree, skipping the division when the degree is zero. -/
def lloydStep (dim : Nat) (centroids : List Vec) (training : List Vec) :
    List Vec :=
  let parts := training.map (qv_partition_one centroids)
  let zeroCentroids := centroids.map (fun _ => List.replicate dim (0 : ℚ))
  let zeroDegrees := centroids.map (fun _ => (0 : Nat))
  let st := (training.zip parts).foldl
    (fun (st : List Vec × List Nat) vp =>
      (st.1.set vp.2 (vecAdd (st.1.getD vp.2 []) vp.1),
        st.2.set vp.2 (st.2.getD vp.2 0 + 1)))
    (zeroCentroids, zeroDegrees)
  (st.1.zip st.2).map
    (fun cd => if cd.2 ≠ 0 then cd.1.map (fun x => x / (cd.2 : ℚ)) else cd.1)

/-- `train_no_init`: max_iter Lloyd iterations. -/
def train_no_init (dim max_iter : Nat) (centroids training : List Vec) :
    List Vec :=
  (fun c => lloydStep dim c training)^[max_iter] centroids

/-- C2 counterexample: with previous centroids [1,1] and [5,5] and the
single training vector [1,1], centroid 1 receives no vectors; after one
Lloyd iteration its value is the zero vector, not its previous value
[5,5]. -/
theorem c2_empty_centroid_counterexample :
    (train_no_init 2 1 [[1, 1], [5, 5]] [[1, 1]]).getD 1 [] = [0, 0] ∧
    (train_no_init 2 1 [[1, 1], [5, 5]] [[1, 1]]).getD 1 [] ≠ [5, 5] := by
  norm_num [train_no_init, lloydStep, qv_partition_one, argminAux, vecAdd,
    sum_of_squares, Function.iterate_succ, Function.iterate_zero,
    List.replicate_succ, List.replicate_zero]

/-- Generic foldl preservation helper, with membership of the traversed
list available to the preservation step. -/
theorem foldl_preserve_mem {α β : Type} (P : β → Prop) (f : β → α → β) :
    ∀ (l : List α), (∀ b, ∀ a ∈ l, P b → P (f b a)) →
      ∀ b, P b → P (l.foldl f b) := by
  intro l
  induction l with
  | nil => intro _ b hb; exact hb
  | cons a as ih =>
    intro hf b hb
    exact ih (fun b' a' ha' hb' => hf b' a' (List.mem_cons_of_mem a ha') hb')
      (f b a) (hf b a (List.mem_cons_self a as) hb)

theorem mem_zip_map {α β : Type} (f : α → β) :
    ∀ (l : List α) (x : α × β), x ∈ l.zip (l.map f) → x.2 = f x.1 := by
  intro l
  induction l with
  | nil => intro x hx; simp at hx
  | cons a as ih =>
    intro x hx
    simp only [List.map_cons, List.zip_cons_cons, List.mem_cons] at hx
    rcases hx with h | h
    · rw [h]
    · exact ih x h

/-- C2 (amended): in a Lloyd iteration, a centroid to which no training
vector is assigned is set to the zero vector for that iteration — the
accumulator is reset to zero and the division is skipped, so the previous
value is not retained (unless it was already zero). -/
theorem c2_empty_centroid_zeroed (dim : Nat) (centroids training : List Vec)
    (j : Nat) (hj : j < centroids.length)
    (hempty : ∀ v ∈ training, qv_partition_one centroids v ≠ j) :
    (lloydStep dim centroids training).getD j [] = List.replicate dim 0 := by
  unfold lloydStep
  set parts := training.map (qv_partition_one centroids) with hparts
  set zeroCentroids := centroids.map (fun _ => List.replicate dim (0 : ℚ))
    with hzc
  set zeroDegrees := centroids.map (fun _ => (0 : Nat)) with hzd
  set f := fun (st : List Vec × List Nat) (vp : Vec × Nat) =>
      (st.1.set vp.2 (vecAdd (st.1.getD vp.2 []) vp.1),
        st.2.set vp.2 (st.2.getD vp.2 0 + 1)) with hf
  have hpair : ∀ vp ∈ training.zip parts, vp.2 ≠ j := by
    intro vp hvp
    have := mem_zip_map (qv_partition_one centroids) training vp hvp
    rw [this]
    exact hempty vp.1 (List.of_mem_zip hvp).1
  have hinv : ∀ st : List Vec × List Nat,
      (st.1.getD j [] = List.replicate dim 0 ∧ st.2.getD j 0 = 0 ∧
        st.1.length = centroids.length ∧ st.2.length = centroids.length) →
      (((training.zip parts).foldl f st).1.getD j [] = List.replicate dim 0 ∧
        ((training.zip parts).foldl f st).2.getD j 0 = 0 ∧
        ((training.zip parts).foldl f st).1.length = centroids.length ∧
        ((training.zip parts).foldl f st).2.length = centroids.length) := by
    intro st hst
    apply foldl_preserve_mem
      (fun st : List Vec × List Nat =>
        st.1.getD j [] = List.replicate dim 0 ∧ st.2.getD j 0 = 0 ∧
          st.1.length = centroids.length ∧ st.2.length = centroids.length)
      f (training.zip parts) ?_ st hst
    intro b vp hvp hb
    obtain ⟨hb1, hb2, hb3, hb4⟩ := hb
    have hne : vp.2 ≠ j := hpair vp hvp
    rw [hf]
    refine ⟨?_, ?_, ?_, ?_⟩
    · rw [List.getD_eq_getElem?_getD, List.getElem?_set_ne hne,
        ← List.getD_eq_getElem?_getD]
      exact hb1
    · rw [List.getD_eq_getElem?_getD, List.getElem?_set_ne hne,
        ← List.getD_eq_getElem?_getD]
      exact hb2
    · simp [hb3]
    · simp [hb4]
  have hst0 : zeroCentroids.getD j [] = List.replicate dim 0 ∧
      zeroDegrees.getD j 0 = 0 ∧
      zeroCentroids.length = centroids.length ∧
      zeroDegrees.length = centroids.length := by
    refine ⟨?_, ?_, by simp [hzc], by simp [hzd]⟩
    · rw [hzc, List.getD_eq_getElem?_getD, List.getElem?_map]
      rw [List.getElem?_eq_getElem hj]
      rfl
    · rw [hzd, List.getD_eq_getElem?_getD, List.getElem?_map]
      rw [List.getElem?_eq_getElem hj]
      rfl
  obtain ⟨hr1, hr2, hr3, hr4⟩ := hinv (zeroCentroids, zeroDegrees) hst0
  set st := (training.zip parts).foldl f (zeroCentroids, zeroDegrees) with hstf
  have hj1 : j < st.1.length := by rw [hr3]; exact hj
  have hj2 : j < st.2.length := by rw [hr4]; exact hj
  have h1 : st.1[j]? = some (List.replicate dim 0) := by
    rw [List.getElem?_eq_getElem hj1]
    have := hr1
    rw [List.getD_eq_getElem?_getD, List.getElem?_eq_getElem hj1] at this
    simp at this
    rw [this]
  have h2 : st.2[j]? = some 0 := by
    rw [List.getElem?_eq_getElem hj2]
    have := hr2
    rw [List.getD_eq_getElem?_getD, List.getElem?_eq_getElem hj2] at this
    simp at this
    rw [this]
  have hzip : (st.1.zip st.2)[j]? = some (List.replicate dim 0, 0) :=
    List.getElem?_zip_eq_some.mpr ⟨h1, h2⟩
  rw [List.getD_eq_getElem?_getD, List.getElem?_map, hzip]
  simp

/-- Witness for C2's amended claim at a concrete centroid set and
training set: centroid 1 receives no vectors and is zeroed. -/
theorem c2_empty_centroid_zeroed_witness :
    1 < ([[0], [7]] : List Vec).length ∧
    (∀ v ∈ ([[0]] : List Vec), qv_partition_one [[0], [7]] v ≠ 1) ∧
    (lloydStep 1 [[0], [7]] [[0]]).getD 1 [] = List.replicate 1 0 :=
  ⟨by decide,
    by
      intro v hv
      simp at hv
      rw [hv]
      norm_num [qv_partition_one, argminAux, sum_of_squares],
    c2_empty_centroid_zeroed 1 [[0], [7]] [[0]] 1 (by decide)
      (by
        intro v hv
        simp at hv
        rw [hv]
        norm_num [qv_partition_one, argminAux, sum_of_squares])⟩

/-!
## Recall computation of the IVF query driver (claim C6)

Embedded from src/src/src/ivf_flat.cc lines 272-291: for each query
column the driver sorts the whole result column, sorts only the FIRST
k_nn entries of the ground-truth column, and then counts the
std::set_intersection of the whole result column with the WHOLE
ground-truth column; the recall is the total count divided by
(k · number of queries).
-/

/-- The `std::set_intersection` merge walk, counting matches. -/
def interCount : List Nat → List Nat → Nat
  | [], _ => 0
  | _ :: _, [] => 0
  | a :: as, b :: bs =>
    if a < b then interCount as (b :: bs)
    else if b < a then interCount (a :: as) bs
    else 1 + interCount as bs
termination_by l1 l2 => l1.length + l2.length

/-- `std::sort` over a whole id list (ascending). -/
def sortNat (l : List Nat) : List Nat :=
  List.insertionSort (· ≤ ·) l

/-- `std::sort(begin, begin + k)`: sort only the first k entries, leaving
the tail in place. -/
def sortFirstK (k : Nat) (l : List Nat) : List Nat :=
  sortNat (l.take k) ++ l.drop k

/-- The recall the driver computes (ivf_flat.cc 272-290): per query, the
result column is fully sorted, only the first k entries of the
ground-truth column are sorted, and the merge intersection runs over the
whole ground-truth column; the total is divided by k times the number of
queries. -/
def recall_code (k : Nat) (top_k truth : List (List Nat)) : ℚ :=
  let total := (top_k.zip truth).foldl
    (fun acc rt => acc + interCount (sortNat rt.1) (sortFirstK k rt.2)) 0
  (total : ℚ) / ((top_k.length * k : Nat) : ℚ)

/-- The recall the spec describes: both the result column and the whole
ground-truth column are sorted before the set intersection is taken. -/
def recall_claimed (k : Nat) (top_k truth : List (List Nat)) : ℚ :=
  let total := (top_k.zip truth).foldl
    (fun acc rt => acc + interCount (sortNat rt.1) (sortNat rt.2)) 0
  (total : ℚ) / ((top_k.length * k : Nat) : ℚ)

/-- C6 counterexample: with k = 1, one query whose result column is [5]
and a ground-truth column [9, 5] (longer than k), the driver computes
recall 0 while the claimed computation (both columns fully sorted before
intersecting) gives recall 1. -/
theorem c6_recall_counterexample :
    recall_code 1 [[5]] [[9, 5]] = 0 ∧
    recall_claimed 1 [[5]] [[9, 5]] = 1 ∧
    recall_code 1 [[5]] [[9, 5]] ≠ recall_claimed 1 [[5]] [[9, 5]] := by
  norm_num [recall_code, recall_claimed, interCount, sortNat, sortFirstK,
    List.insertionSort, List.orderedInsert]

theorem foldl_congr_mem {α β : Type} (f g : β → α → β) :
    ∀ (l : List α), (∀ a ∈ l, ∀ b, f b a = g b a) →
      ∀ b, l.foldl f b = l.foldl g b := by
  intro l
  induction l with
  | nil => intro _ b; rfl
  | cons a as ih =>
    intro h b
    simp only [List.foldl_cons]
    rw [h a (List.mem_cons_self a as)]
    exact ih (fun a' ha' => h a' (List.mem_cons_of_mem a ha')) (g b a)

/-- C6 (amended): the driver's recall equals
(Σ set-intersection counts) / (k·Q), but only the first k entries of each
ground-truth column are sorted and the whole column enters the
intersection; when every ground-truth column has exactly k entries this
coincides with the claimed computation in which both columns are fully
sorted. -/
theorem c6_recall_amended (k : Nat) (top_k truth : List (List Nat))
    (hlen : ∀ col ∈ truth, col.length = k) :
    recall_code k top_k truth = recall_claimed k top_k truth := by
  unfold recall_code recall_claimed
  have : (top_k.zip truth).foldl
      (fun acc rt => acc + interCount (sortNat rt.1) (sortFirstK k rt.2)) 0 =
      (top_k.zip truth).foldl
      (fun acc rt => acc + interCount (sortNat rt.1) (sortNat rt.2)) 0 := by
    apply foldl_congr_mem
    intro rt hrt b
    have hmem : rt.2 ∈ truth := (List.of_mem_zip hrt).2
    have hl : rt.2.length = k := hlen rt.2 hmem
    have hsf : sortFirstK k rt.2 = sortNat rt.2 := by
      unfold sortFirstK
      rw [List.take_of_length_le (le_of_eq hl),
        List.drop_eq_nil_of_le (le_of_eq hl), List.append_nil]
    rw [hsf]
  rw [this]

/-- Witness for C6's amended claim at a concrete result/ground-truth
pair with ground-truth columns of exactly k entries. -/
theorem c6_recall_amended_witness :
    (∀ col ∈ ([[3], [9]] : List (List Nat)), col.length = 1) ∧
    recall_code 1 [[3], [7]] [[3], [9]] = recall_claimed 1 [[3], [7]] [[3], [9]] :=
  ⟨by decide,
    c6_recall_amended 1 [[3], [7]] [[3], [9]] (by decide)⟩

/-!
## The vq-heap brute-force kernel (claim C8)

Embedded from `vq_query_heap` in src/experimental/include/flat_query.h
(lines 193-291).  A matrix that may stream in blocks is modelled as a
blocked-flag plus its blocks, each block carrying its absolute column
offset; when both the database and the query matrix are blocked the
kernel throws (std::runtime_error, spec kind InvalidConfig) before any
distance is computed or heap touched.  The per-worker heaps and their
merge are modelled by their sequential equivalent: one heap per query
column, updated over all database entries in order.
-/

/-- A possibly-blocked (streaming) column matrix: a blocked flag and the
list of blocks, each with its absolute column offset. -/
structure BMatrix where
  blocked : Bool
  blocks : List (Nat × List Vec)

/-- All (absolute column index, vector) entries of a possibly-blocked
matrix, in block order. -/
def bm_entries (m : BMatrix) : List (Nat × Vec) :=
  m.blocks.flatMap
    (fun blk => (List.range blk.2.length).map
      (fun i => (blk.1 + i, blk.2.getD i [])))

/-- `vq_query_heap(db, q, k, nthreads)`: fails with InvalidConfig when
both db and q are blocked; otherwise scans every database entry and
inserts its distance to every query into that query's k-heap. -/
def vq_query_heap (db q : BMatrix) (k : Nat) :
    Except ErrKind (List (List (ℚ × Nat))) :=
  if db.blocked && q.blocked then Except.error ErrKind.invalidConfig
  else
    let queries := bm_entries q
    let heaps0 := queries.map (fun _ => ([] : List (ℚ × Nat)))
    Except.ok ((bm_entries db).foldl
      (fun heaps dv =>
        (queries.zip heaps).map
          (fun qh => (heap_insert k qh.2 (sum_of_squares qh.1.2 dv.2) dv.1).1))
      heaps0)

/-- C8: vq_query_heap fails with InvalidConfig exactly when both the
database and the query matrix are blocked, and the failure is decided
before any score is computed (the guard inspects only the two flags);
when at most one is blocked the kernel returns a result. -/
theorem c8_vq_query_heap_blocked (db q : BMatrix) (k : Nat) :
    (vq_query_heap db q k = Except.error ErrKind.invalidConfig ↔
      db.blocked = true ∧ q.blocked = true) ∧
    (¬ (db.blocked = true ∧ q.blocked = true) →
      ∃ r, vq_query_heap db q k = Except.ok r) := by
  unfold vq_query_heap
  by_cases hb : db.blocked && q.blocked
  · rw [if_pos hb]
    simp at hb
    simp [hb]
  · rw [if_neg hb]
    simp at hb
    constructor
    · constructor
      · intro h
        exact absurd h (by simp)
      · intro h
        rcases h with ⟨h1, h2⟩
        rw [h1, h2] at hb
        simp at hb
    · intro _
      exact ⟨_, rfl⟩

/-- Witness for C8 at one blocked and one non-blocked matrix. -/
theorem c8_vq_query_heap_blocked_witness :
    (vq_query_heap ⟨true, [(0, [[1]])]⟩ ⟨false, [(0, [[2]])]⟩ 3 =
        Except.error ErrKind.invalidConfig ↔
      (⟨true, [(0, [[1]])]⟩ : BMatrix).blocked = true ∧
        (⟨false, [(0, [[2]])]⟩ : BMatrix).blocked = true) ∧
    (¬ ((⟨true, [(0, [[1]])]⟩ : BMatrix).blocked = true ∧
        (⟨false, [(0, [[2]])]⟩ : BMatrix).blocked = true) →
      ∃ r, vq_query_heap ⟨true, [(0, [[1]])]⟩ ⟨false, [(0, [[2]])]⟩ 3 =
        Except.ok r) :=
  c8_vq_query_heap_blocked ⟨true, [(0, [[1]])]⟩ ⟨false, [(0, [[2]])]⟩ 3

/-!
## Vamana index persistence (claims C5 and C10)

Embedded from `vamana_index` in src/src/include/detail/graph/vamana.h:
the metadata table (lines 741-750), `write_index` (lines 767-824) and the
group-loading constructor (lines 460-502).  The TileDB array store is out
of scope per spec section 1 (an opaque typed blob store); a written group
is modelled as the record of everything `write_index` puts into it, and a
store as a partial map from group URIs to such records.
-/

/-- The in-memory vamana index state: feature matrix, metadata fields and
the adjacency-list graph. -/
structure VamanaIndex where
  feature_vectors : List Vec
  dimension : Nat
  num_vectors : Nat
  L_build : Nat
  R_max_degree : Nat
  B_backtrack : Nat
  alpha_min : ℚ
  alpha_max : ℚ
  graph : AdjList
  medioid : Nat
deriving DecidableEq

/-- Everything `write_index` stores in a group: the eight metadata
entries, the feature vectors, and the CSR triple adj_scores / adj_ids /
adj_index. -/
structure StoredGroup where
  meta_dimension : Nat
  meta_ntotal : Nat
  meta_L : Nat
  meta_R : Nat
  meta_B : Nat
  meta_alpha_min : ℚ
  meta_alpha_max : ℚ
  meta_medioid : Nat
  feature_vectors : List Vec
  adj_scores : List ℚ
  adj_ids : List Nat
  adj_index : List Nat
deriving DecidableEq

/-- The CSR triple built by `write_index` (vamana.h 798-811): scores and
ids of all out-edges written contiguously node by node, with adj_index[i]
the running edge offset at the start of node i and a final entry holding
the total edge count. -/
def buildCSR (g : AdjList) : List ℚ × List Nat × List Nat :=
  let st := g.foldl
    (fun (st : List ℚ × List Nat × List Nat × Nat) edges =>
      (st.1 ++ edges.map Prod.fst,
        st.2.1 ++ edges.map Prod.snd,
        st.2.2.1 ++ [st.2.2.2],
        st.2.2.2 + edges.length))
    ([], [], [], 0)
  (st.1, st.2.1, st.2.2.1 ++ [st.2.2.2])

/-- The group record `write_index` produces. -/
def write_group (idx : VamanaIndex) : StoredGroup :=
  { meta_dimension := idx.dimension
    meta_ntotal := idx.num_vectors
    meta_L := idx.L_build
    meta_R := idx.R_max_degree
    meta_B := idx.B_backtrack
    meta_alpha_min := idx.alpha_min
    meta_alpha_max := idx.alpha_max
    meta_medioid := idx.medioid
    feature_vectors := idx.feature_vectors
    adj_scores := (buildCSR idx.graph).1
    adj_ids := (buildCSR idx.graph).2.1
    adj_index := (buildCSR idx.graph).2.2 }

/-- The edge list the loading constructor replays for node i (vamana.h
495-501): positions adj_index[i] to adj_index[i+1] of the parallel
score/id arrays. -/
def readEdges (sg : StoredGroup) (i : Nat) : List (ℚ × Nat) :=
  (List.range' (sg.adj_index.getD i 0)
      (sg.adj_index.getD (i + 1) 0 - sg.adj_index.getD i 0)).map
    (fun j => (sg.adj_scores.getD j 0, sg.adj_ids.getD j 0))

/-- The `vamana_index(ctx, group_uri)` constructor: metadata fields from
the group, feature vectors re-loaded, and the graph rebuilt by add_edge
over the CSR slices. -/
def read_group (sg : StoredGroup) : VamanaIndex :=
  { feature_vectors := sg.feature_vectors
    dimension := sg.meta_dimension
    num_vectors := sg.meta_ntotal
    L_build := sg.meta_L
    R_max_degree := sg.meta_R
    B_backtrack := sg.meta_B
    alpha_min := sg.meta_alpha_min
    alpha_max := sg.meta_alpha_max
    graph := (List.range sg.meta_ntotal).foldl
      (fun g i =>
        (readEdges sg i).foldl (fun g e => add_edge g i e.2 e.1) g)
      (empty_adj_list sg.meta_ntotal)
    medioid := sg.meta_medioid }

/-- The opaque array store: a partial map from group URIs to stored
groups. -/
def Store := String → Option StoredGroup

/-- `write_index(group_uri, overwrite)` (vamana.h 767-824): when the
group URI already exists and overwrite is false, return false without
touching the store; otherwise (re)create the group, write metadata,
feature vectors and the CSR triple, and return true. -/
def write_index (store : Store) (group_uri : String) (overwrite : Bool)
    (idx : VamanaIndex) : Bool × Store :=
  if (store group_uri).isSome && !overwrite then (false, store)
  else
    (true, fun u => if u = group_uri then some (write_group idx) else store u)

/-- C10: write_index on an existing group with overwrite = false returns
false and leaves the store untouched; whenever it returns false the
store is untouched; and it returns true only when the full group record
for the index has actually been written at the target URI. -/
theorem c10_write_index_overwrite (store : Store) (uri : String)
    (overwrite : Bool) (idx : VamanaIndex) :
    ((store uri).isSome ∧ overwrite = false →
      write_index store uri overwrite idx = (false, store)) ∧
    ((write_index store uri overwrite idx).1 = false →
      (write_index store uri overwrite idx).2 = store) ∧
    ((write_index store uri overwrite idx).1 = true →
      (write_index store uri overwrite idx).2 uri = some (write_group idx)) := by
  unfold write_index
  by_cases hguard : (store uri).isSome && !overwrite
  · rw [if_pos hguard]
    simp only [Bool.and_eq_true, Bool.not_eq_true'] at hguard
    refine ⟨fun _ => rfl, fun _ => rfl, ?_⟩
    intro hfalse
    exact absurd hfalse (by simp)
  · rw [if_neg hguard]
    simp only [Bool.and_eq_true, Bool.not_eq_true'] at hguard
    refine ⟨?_, ?_, ?_⟩
    · intro ⟨h1, h2⟩
      exact absurd ⟨h1, h2⟩ hguard
    · intro hfalse
      exact absurd hfalse (by simp)
    · intro _
      simp

/-- A concrete index for the C10 witness. -/
def c10idx : VamanaIndex :=
  ⟨[[1]], 1, 1, 2, 2, 2, 1, 12 / 10, [[]], 0⟩

/-- A concrete store already holding the target group URI. -/
def c10store : Store :=
  fun u => if u = "g" then some (write_group c10idx) else none

/-- Witness for C10 at a concrete store holding the target group, with
overwrite false. -/
theorem c10_write_index_overwrite_witness :
    ((c10store "g").isSome ∧ false = false) ∧
    write_index c10store "g" false c10idx = (false, c10store) :=
  ⟨⟨by simp [c10store], rfl⟩,
    (c10_write_index_overwrite c10store "g" false c10idx).1
      ⟨by simp [c10store], rfl⟩⟩

/-!
## CSR round-trip lemmas (claim C5 machinery)
-/

/-- Total number of edges in the first nodes of a graph. -/
def sumLen {α : Type} (g : List (List α)) : Nat :=
  (g.map List.length).sum

theorem buildCSR_fold_char :
    ∀ (g : AdjList) (s0 : List ℚ) (i0 x0 : List Nat) (off0 : Nat),
      g.foldl
        (fun (st : List ℚ × List Nat × List Nat × Nat) edges =>
          (st.1 ++ edges.map Prod.fst,
            st.2.1 ++ edges.map Prod.snd,
            st.2.2.1 ++ [st.2.2.2],
            st.2.2.2 + edges.length))
        (s0, i0, x0, off0) =
      (s0 ++ (g.map (List.map Prod.fst)).flatten,
        i0 ++ (g.map (List.map Prod.snd)).flatten,
        x0 ++ (List.range g.length).map (fun i => off0 + sumLen (g.take i)),
        off0 + sumLen g) := by
  intro g
  induction g with
  | nil => intro s0 i0 x0 off0; simp [sumLen]
  | cons e g ih =>
    intro s0 i0 x0 off0
    simp only [List.foldl_cons]
    rw [ih]
    refine congrArg₂ _ (by simp) (congrArg₂ _ (by simp) (congrArg₂ _ ?_ ?_))
    · rw [List.length_cons, List.range_succ_eq_map]
      simp only [List.map_cons, List.map_map]
      rw [List.append_assoc]
      congr 1
      rw [List.singleton_append]
      have h0 : off0 + sumLen (List.take 0 (e :: g)) = off0 := by
        simp [sumLen]
      rw [h0]
      congr 1
      apply List.map_congr_left
      intro i _
      simp only [Function.comp_apply, List.take_succ_cons]
      have : sumLen (e :: g.take i) = e.length + sumLen (g.take i) := by
        simp [sumLen]
      rw [this]
      omega
    · simp [sumLen]
      omega

theorem buildCSR_eq (g : AdjList) :
    buildCSR g =
      ((g.map (List.map Prod.fst)).flatten,
        (g.map (List.map Prod.snd)).flatten,
        (List.range (g.length + 1)).map (fun i => sumLen (g.take i))) := by
  unfold buildCSR
  rw [buildCSR_fold_char]
  simp only [List.nil_append]
  refine congrArg₂ _ rfl (congrArg₂ _ rfl ?_)
  rw [List.range_succ, List.map_append]
  simp [List.take_length]

theorem csr_index_getD (g : AdjList) (i : Nat) (h : i ≤ g.length) :
    ((List.range (g.length + 1)).map (fun i => sumLen (g.take i))).getD i 0 =
      sumLen (g.take i) := by
  rw [List.getD_eq_getElem?_getD, List.getElem?_map,
    List.getElem?_range (Nat.lt_succ_of_le h)]
  rfl

theorem sumLen_take_succ {α : Type} (g : List (List α)) (i : Nat)
    (h : i < g.length) :
    sumLen (g.take (i + 1)) = sumLen (g.take i) + (g.getD i []).length := by
  unfold sumLen
  rw [List.map_take, List.map_take, List.take_succ]
  have hsome : (List.map List.length g)[i]? = some (g.getD i []).length := by
    rw [List.getElem?_map, List.getElem?_eq_getElem h,
      List.getD_eq_getElem?_getD, List.getElem?_eq_getElem h]
    rfl
  rw [hsome]
  simp

theorem flatten_getD {α : Type} (d : α) :
    ∀ (g : List (List α)) (i j : Nat), i < g.length →
      j < (g.getD i []).length →
      g.flatten.getD (sumLen (g.take i) + j) d = (g.getD i []).getD j d := by
  intro g
  induction g with
  | nil => intro i j hi _; simp at hi
  | cons l0 rest ih =>
    intro i j hi hj
    cases i with
    | zero =>
      have h0 : (l0 :: rest).getD 0 [] = l0 := rfl
      have hj' : j < l0.length := by rw [h0] at hj; exact hj
      have hts : sumLen (List.take 0 (l0 :: rest)) = 0 := rfl
      rw [h0, hts, Nat.zero_add, List.flatten_cons,
        List.getD_eq_getElem?_getD, List.getElem?_append_left hj',
        ← List.getD_eq_getElem?_getD]
    | succ i =>
      have hi' : i < rest.length := by simpa using hi
      have hj' : j < (rest.getD i []).length := by simpa using hj
      simp only [List.take_succ_cons, List.flatten_cons]
      have hs : sumLen (l0 :: rest.take i) = l0.length + sumLen (rest.take i) := by
        simp [sumLen]
      rw [hs]
      have hidx : l0.length + sumLen (rest.take i) + j =
          l0.length + (sumLen (rest.take i) + j) := by omega
      rw [hidx, List.getD_eq_getElem?_getD, List.getElem?_append_right
        (Nat.le_add_right _ _)]
      simp only [Nat.add_sub_cancel_left]
      rw [← List.getD_eq_getElem?_getD]
      have := ih i j hi' hj'
      simpa using this

theorem sumLen_map_map {α β : Type} (F : α → β) (g : List (List α)) :
    sumLen (g.map (List.map F)) = sumLen g := by
  unfold sumLen
  rw [List.map_map]
  congr 1
  apply List.map_congr_left
  intro l _
  simp

theorem getD_map_in {α β : Type} (F : List α → List β) (g : List (List α))
    (i : Nat) (h : i < g.length) :
    (g.map F).getD i [] = F (g.getD i []) := by
  rw [List.getD_eq_getElem?_getD, List.getElem?_map,
    List.getElem?_eq_getElem h, List.getD_eq_getElem?_getD,
    List.getElem?_eq_getElem h]
  rfl

theorem map_range'_eq {α : Type} (d : α) :
    ∀ (l : List α) (s : Nat) (f : Nat → α),
      (∀ j, j < l.length → f (s + j) = l.getD j d) →
      (List.range' s l.length).map f = l := by
  intro l
  induction l with
  | nil => intro s f _; rfl
  | cons a t ih =>
    intro s f h
    have h0 : f s = a := by simpa using h 0 (by simp)
    rw [List.length_cons, List.range'_succ, List.map_cons, h0]
    congr 1
    apply ih
    intro j hj
    have := h (j + 1) (by simpa using Nat.succ_lt_succ hj)
    rw [show s + 1 + j = s + (j + 1) by omega, this]
    simp

theorem getD_map_fst (l : List (ℚ × Nat)) (j : Nat) (h : j < l.length) :
    (l.map Prod.fst).getD j 0 = (l.getD j ((0 : ℚ), (0 : Nat))).1 := by
  rw [List.getD_eq_getElem?_getD, List.getElem?_map,
    List.getElem?_eq_getElem h, List.getD_eq_getElem?_getD,
    List.getElem?_eq_getElem h]
  rfl

theorem getD_map_snd (l : List (ℚ × Nat)) (j : Nat) (h : j < l.length) :
    (l.map Prod.snd).getD j 0 = (l.getD j ((0 : ℚ), (0 : Nat))).2 := by
  rw [List.getD_eq_getElem?_getD, List.getElem?_map,
    List.getElem?_eq_getElem h, List.getD_eq_getElem?_getD,
    List.getElem?_eq_getElem h]
  rfl

theorem sumLen_take_map_map {α β : Type} (F : α → β) (g : List (List α))
    (i : Nat) :
    sumLen ((g.map (List.map F)).take i) = sumLen (g.take i) := by
  rw [← List.map_take, sumLen_map_map]

/-- The slice of the written CSR arrays for node i is exactly node i's
out-edge list. -/
theorem readEdges_write (idx : VamanaIndex)
    (hlen : idx.graph.length = idx.num_vectors) (i : Nat)
    (hi : i < idx.num_vectors) :
    readEdges (write_group idx) i = idx.graph.getD i [] := by
  have hig : i < idx.graph.length := by rw [hlen]; exact hi
  have hidx : (write_group idx).adj_index =
      (List.range (idx.graph.length + 1)).map
        (fun i => sumLen (idx.graph.take i)) := by
    show (buildCSR idx.graph).2.2 = _
    rw [buildCSR_eq]
  have hsc : (write_group idx).adj_scores =
      (idx.graph.map (List.map Prod.fst)).flatten := by
    show (buildCSR idx.graph).1 = _
    rw [buildCSR_eq]
  have hid : (write_group idx).adj_ids =
      (idx.graph.map (List.map Prod.snd)).flatten := by
    show (buildCSR idx.graph).2.1 = _
    rw [buildCSR_eq]
  have hstart : (write_group idx).adj_index.getD i 0 =
      sumLen (idx.graph.take i) := by
    rw [hidx]
    exact csr_index_getD idx.graph i (Nat.le_of_lt hig)
  have hstop : (write_group idx).adj_index.getD (i + 1) 0 =
      sumLen (idx.graph.take (i + 1)) := by
    rw [hidx]
    exact csr_index_getD idx.graph (i + 1) (Nat.succ_le_of_lt hig)
  have hcount : (write_group idx).adj_index.getD (i + 1) 0 -
      (write_group idx).adj_index.getD i 0 =
      (idx.graph.getD i []).length := by
    rw [hstart, hstop, sumLen_take_succ idx.graph i hig]
    omega
  unfold readEdges
  rw [hcount, hstart]
  apply map_range'_eq ((0 : ℚ), (0 : Nat))
  intro j hj
  have hsc_getD : (write_group idx).adj_scores.getD
      (sumLen (idx.graph.take i) + j) 0 =
      ((idx.graph.getD i []).getD j ((0 : ℚ), (0 : Nat))).1 := by
    rw [hsc]
    have := flatten_getD (0 : ℚ) (idx.graph.map (List.map Prod.fst)) i j
      (by simpa using hig)
      (by rw [getD_map_in _ _ _ hig]; simpa using hj)
    rw [sumLen_take_map_map] at this
    rw [this, getD_map_in _ _ _ hig, getD_map_fst _ j hj]
  have hid_getD : (write_group idx).adj_ids.getD
      (sumLen (idx.graph.take i) + j) 0 =
      ((idx.graph.getD i []).getD j ((0 : ℚ), (0 : Nat))).2 := by
    rw [hid]
    have := flatten_getD (0 : Nat) (idx.graph.map (List.map Prod.snd)) i j
      (by simpa using hig)
      (by rw [getD_map_in _ _ _ hig]; simpa using hj)
    rw [sumLen_take_map_map] at this
    rw [this, getD_map_in _ _ _ hig, getD_map_snd _ j hj]
  rw [hsc_getD, hid_getD]

/-- Replaying an edge list with the deduplicating add_edge, at the level
of one node's list. -/
def addEdgesList (acc : List (ℚ × Nat)) (es : List (ℚ × Nat)) :
    List (ℚ × Nat) :=
  es.foldl (fun l e => if e.2 ∈ l.map Prod.snd then l else l ++ [e]) acc

theorem addEdgesList_of_nodup :
    ∀ (es acc : List (ℚ × Nat)), (es.map Prod.snd).Nodup →
      (∀ e ∈ es, e.2 ∉ acc.map Prod.snd) → addEdgesList acc es = acc ++ es := by
  intro es
  induction es with
  | nil => intro acc _ _; simp [addEdgesList]
  | cons e es ih =>
    intro acc hnd hdisj
    unfold addEdgesList
    simp only [List.foldl_cons]
    have hnotin : e.2 ∉ acc.map Prod.snd :=
      hdisj e (List.mem_cons_self e es)
    rw [if_neg hnotin]
    have hnd' : (es.map Prod.snd).Nodup := by
      simp only [List.map_cons, List.nodup_cons] at hnd
      exact hnd.2
    have hdisj' : ∀ x ∈ es, x.2 ∉ (acc ++ [e]).map Prod.snd := by
      intro x hx
      simp only [List.map_append, List.mem_append]
      intro hmem
      rcases hmem with h1 | h1
      · exact hdisj x (List.mem_cons_of_mem e hx) h1
      · simp only [List.map_cons, List.map_nil, List.mem_singleton] at h1
        simp only [List.map_cons, List.nodup_cons] at hnd
        exact hnd.1 (h1 ▸ List.mem_map_of_mem Prod.snd hx)
    have := ih (acc ++ [e]) hnd' hdisj'
    unfold addEdgesList at this
    rw [this]
    simp

theorem inner_fold_other (i : Nat) :
    ∀ (es : List (ℚ × Nat)) (g : AdjList) (r : Nat), r ≠ i →
      out_edges (es.foldl (fun g e => add_edge g i e.2 e.1) g) r =
        out_edges g r := by
  intro es
  induction es with
  | nil => intro g r _; rfl
  | cons e es ih =>
    intro g r hr
    simp only [List.foldl_cons]
    rw [ih (add_edge g i e.2 e.1) r hr, add_edge_other g i e.2 r e.1 hr]

theorem inner_fold_len (i : Nat) :
    ∀ (es : List (ℚ × Nat)) (g : AdjList),
      (es.foldl (fun g e => add_edge g i e.2 e.1) g).length = g.length := by
  intro es
  induction es with
  | nil => intro g; rfl
  | cons e es ih =>
    intro g
    simp only [List.foldl_cons]
    rw [ih (add_edge g i e.2 e.1), length_add_edge]

theorem inner_fold_self (i : Nat) :
    ∀ (es : List (ℚ × Nat)) (g : AdjList), i < g.length →
      out_edges (es.foldl (fun g e => add_edge g i e.2 e.1) g) i =
        addEdgesList (out_edges g i) es := by
  intro es
  induction es with
  | nil => intro g _; rfl
  | cons e es ih =>
    intro g hg
    simp only [List.foldl_cons]
    have hg' : i < (add_edge g i e.2 e.1).length := by
      rw [length_add_edge]; exact hg
    rw [ih (add_edge g i e.2 e.1) hg']
    unfold addEdgesList
    simp only [List.foldl_cons]
    congr 1
    by_cases hmem : e.2 ∈ targets g i
    · rw [out_edges_add_edge_mem g i e.2 e.1 hmem]
      rw [if_pos (by simpa [targets] using hmem)]
    · rw [out_edges_add_edge_self g i e.2 e.1 hg hmem]
      rw [if_neg (by simpa [targets] using hmem)]

theorem out_edges_empty (n p : Nat) : out_edges (empty_adj_list n) p = [] := by
  unfold out_edges empty_adj_list
  rw [List.getD_eq_getElem?_getD, List.getElem?_replicate]
  split <;> rfl

theorem outer_fold_not_mem (sg : StoredGroup) :
    ∀ (is : List Nat) (g : AdjList) (p : Nat), p ∉ is →
      out_edges (is.foldl
        (fun g i =>
          (readEdges sg i).foldl (fun g e => add_edge g i e.2 e.1) g) g) p =
        out_edges g p := by
  intro is
  induction is with
  | nil => intro g p _; rfl
  | cons i is ih =>
    intro g p hp
    simp only [List.foldl_cons]
    have hpi : p ≠ i := fun h => hp (h ▸ List.mem_cons_self i is)
    have hpis : p ∉ is := fun h => hp (List.mem_cons_of_mem i h)
    rw [ih _ p hpis, inner_fold_other i (readEdges sg i) g p hpi]

theorem outer_fold_len (sg : StoredGroup) :
    ∀ (is : List Nat) (g : AdjList),
      (is.foldl
        (fun g i =>
          (readEdges sg i).foldl (fun g e => add_edge g i e.2 e.1) g) g).length =
      g.length := by
  intro is
  induction is with
  | nil => intro g; rfl
  | cons i is ih =>
    intro g
    simp only [List.foldl_cons]
    rw [ih, inner_fold_len]

theorem outer_fold_mem (sg : StoredGroup) :
    ∀ (is : List Nat) (g : AdjList) (p : Nat), is.Nodup → p ∈ is →
      p < g.length →
      out_edges (is.foldl
        (fun g i =>
          (readEdges sg i).foldl (fun g e => add_edge g i e.2 e.1) g) g) p =
        addEdgesList (out_edges g p) (readEdges sg p) := by
  intro is
  induction is with
  | nil => intro g p _ hp _; simp at hp
  | cons i is ih =>
    intro g p hnd hp hpl
    simp only [List.foldl_cons]
    by_cases hpi : p = i
    · subst hpi
      have hpis : p ∉ is := by
        simp only [List.nodup_cons] at hnd
        exact hnd.1
      rw [outer_fold_not_mem sg is _ p hpis,
        inner_fold_self p (readEdges sg p) g hpl]
    · have hpis : p ∈ is := by
        rcases List.mem_cons.mp hp with h | h
        · exact absurd h hpi
        · exact h
      have hnd' : is.Nodup := by
        simp only [List.nodup_cons] at hnd
        exact hnd.2
      have hpl' : p <
          ((readEdges sg i).foldl (fun g e => add_edge g i e.2 e.1) g).length := by
        rw [inner_fold_len]
        exact hpl
      rw [ih _ p hnd' hpis hpl',
        inner_fold_other i (readEdges sg i) g p hpi]

/-- C5: writing a vamana index and reading the written group back yields
an index equal to the original on every metadata field, every feature
vector element, and every node's adjacency list, order and scores
included.  The hypotheses are data-model invariants of a trained index:
the graph has one entry per vector and no per-node duplicate targets. -/
theorem c5_write_read_roundtrip (idx : VamanaIndex)
    (hlen : idx.graph.length = idx.num_vectors)
    (hnodup : ∀ p, (targets idx.graph p).Nodup) :
    read_group (write_group idx) = idx := by
  have hgraph : (List.range (write_group idx).meta_ntotal).foldl
      (fun g i =>
        (readEdges (write_group idx) i).foldl
          (fun g e => add_edge g i e.2 e.1) g)
      (empty_adj_list (write_group idx).meta_ntotal) = idx.graph := by
    have hN : (write_group idx).meta_ntotal = idx.num_vectors := rfl
    rw [hN]
    have hflen : ((List.range idx.num_vectors).foldl
        (fun g i =>
          (readEdges (write_group idx) i).foldl
            (fun g e => add_edge g i e.2 e.1) g)
        (empty_adj_list idx.num_vectors)).length = idx.num_vectors := by
      rw [outer_fold_len]
      simp [empty_adj_list]
    apply List.ext_getElem
    · rw [hflen, hlen]
    · intro n h1 h2
      have hn : n < idx.num_vectors := by rw [← hflen]; exact h1
      have hentry : out_edges ((List.range idx.num_vectors).foldl
          (fun g i =>
            (readEdges (write_group idx) i).foldl
              (fun g e => add_edge g i e.2 e.1) g)
          (empty_adj_list idx.num_vectors)) n =
          addEdgesList
            (out_edges (empty_adj_list idx.num_vectors) n)
            (readEdges (write_group idx) n) := by
        apply outer_fold_mem
        · exact List.nodup_range _
        · exact List.mem_range.mpr hn
        · simp [empty_adj_list]
          exact hn
      rw [out_edges_empty, readEdges_write idx hlen n hn] at hentry
      have hadd : addEdgesList [] (idx.graph.getD n []) =
          idx.graph.getD n [] := by
        have := addEdgesList_of_nodup (idx.graph.getD n []) []
          (by
            have := hnodup n
            simpa [targets, out_edges] using this)
          (by intro e _; simp)
        simpa using this
      rw [hadd] at hentry
      have hleft : out_edges ((List.range idx.num_vectors).foldl
          (fun g i =>
            (readEdges (write_group idx) i).foldl
              (fun g e => add_edge g i e.2 e.1) g)
          (empty_adj_list idx.num_vectors)) n =
          ((List.range idx.num_vectors).foldl
            (fun g i =>
              (readEdges (write_group idx) i).foldl
                (fun g e => add_edge g i e.2 e.1) g)
            (empty_adj_list idx.num_vectors))[n] := by
        unfold out_edges
        rw [List.getD_eq_getElem?_getD, List.getElem?_eq_getElem h1]
        rfl
      have hright : idx.graph.getD n [] = idx.graph[n] := by
        rw [List.getD_eq_getElem?_getD, List.getElem?_eq_getElem h2]
        rfl
      rw [← hleft, ← hright]
      exact hentry
  obtain ⟨fv, dim, nv, L, R, B, amin, amax, gr, med⟩ := idx
  unfold read_group
  simp only [VamanaIndex.mk.injEq]
  exact ⟨rfl, rfl, rfl, rfl, rfl, rfl, rfl, rfl, hgraph, rfl⟩

/-- Witness for C5 at a concrete two-node index. -/
theorem c5_write_read_roundtrip_witness :
    (([[(1, 1)], [(1, 0), (2, 1)]] : AdjList).length = 2 ∧
      ∀ p, (targets [[(1, 1)], [(1, 0), (2, 1)]] p).Nodup) ∧
    read_group (write_group
      ⟨[[0], [1]], 1, 2, 4, 4, 4, 1, 12 / 10, [[(1, 1)], [(1, 0), (2, 1)]], 0⟩) =
      ⟨[[0], [1]], 1, 2, 4, 4, 4, 1, 12 / 10, [[(1, 1)], [(1, 0), (2, 1)]], 0⟩ :=
  ⟨⟨by decide, by
      intro p
      match p with
      | 0 => decide
      | 1 => decide
      | (n + 2) => simp [targets, out_edges]⟩,
    c5_write_read_roundtrip
      ⟨[[0], [1]], 1, 2, 4, 4, 4, 1, 12 / 10, [[(1, 1)], [(1, 0), (2, 1)]], 0⟩
      (by decide)
      (by
        intro p
        match p with
        | 0 => decide
        | 1 => decide
        | (n + 2) => simp [targets, out_edges])⟩

/-!
## K-means++ seeding (claim C7)

Embedded from `kmeans_index::kmeans_pp` in src/unnamed/part_000 (lines
97-190).  The per-vector distance array starts at the sentinel
`std::numeric_limits<double>::max() / 8`, modelled as `none` (an infinite
distance that any real distance undercuts); each round folds the distance
to the newest centroid in with `min`, draws the next centroid index from
the discrete distribution with those weights, copies that training column
as the next centroid, and zeroes its weight.  The two random draws
(`uniform_int_distribution` for the first centroid,
`discrete_distribution` for the rest) are modelled as oracles: the first
choice is a parameter, and the weighted draw is any function satisfying
`DrawOk` — it returns an in-range index whose weight is not zero whenever
one exists, which is the defining property of `discrete_distribution`
(an index of zero weight has probability zero).
-/

/-- Distance (sampling-weight) array: `none` is the initial sentinel. -/
abbrev DistArr := List (Option ℚ)

/-- `distances[j] = min(distances[j], distance)`, with the sentinel
beaten by any real distance. -/
def updMin (o : Option ℚ) (d : ℚ) : Option ℚ :=
  match o with
  | none => some d
  | some x => some (min x d)

/-- One round of the kmeans++ loop (part_000 lines 127-189): fold the
distance to the newest centroid into the weight array, draw the next
index, copy its column as the next centroid, and zero its weight.  State
is (centroids so far, weights, chosen indices so far). -/
def kmeansPPStep (train : List Vec) (draw : DistArr → Nat)
    (st : List Vec × DistArr × List Nat) : List Vec × DistArr × List Nat :=
  let c := st.1.getLastD []
  let dists1 := (train.zip st.2.1).map
    (fun td => updMin td.2 (sum_of_squares td.1 c))
  let nextIndex := draw dists1
  (st.1 ++ [train.getD nextIndex []],
    dists1.set nextIndex (some 0),
    st.2.2 ++ [nextIndex])

/-- The kmeans++ round loop. -/
def kmeansPPRounds (train : List Vec) (draw : DistArr → Nat) :
    Nat → List Vec × DistArr × List Nat → List Vec × DistArr × List Nat
  | 0, st => st
  | n + 1, st => kmeansPPRounds train draw n (kmeansPPStep train draw st)

/-- `kmeans_pp`: centroid 0 is the uniformly drawn training column
`choice`; the remaining K - 1 centroids come from the weighted rounds.
Returns the full final state (centroids, weights, chosen indices). -/
def kmeans_pp_aux (train : List Vec) (draw : DistArr → Nat)
    (choice K : Nat) : List Vec × DistArr × List Nat :=
  kmeansPPRounds train draw (K - 1)
    ([train.getD choice []], List.replicate train.length none, [choice])

/-- The centroid matrix `kmeans_pp` leaves behind. -/
def kmeans_pp (train : List Vec) (draw : DistArr → Nat)
    (choice K : Nat) : List Vec :=
  (kmeans_pp_aux train draw choice K).1

/-- The contract of `std::discrete_distribution` over N weights: the
drawn index is in range, and an index of zero weight is never drawn as
long as some weight is nonzero (the sentinel none counts as positive). -/
def DrawOk (N : Nat) (draw : DistArr → Nat) : Prop :=
  ∀ ws : DistArr, ws.length = N →
    (∃ j, j < N ∧ ws.getD j none ≠ some 0) →
    draw ws < N ∧ ws.getD (draw ws) none ≠ some 0

theorem sum_of_squares_eq_zero {a : Vec} :
    ∀ {b : Vec}, a.length = b.length → sum_of_squares a b = 0 → a = b := by
  induction a with
  | nil =>
    intro b hlen _
    cases b with
    | nil => rfl
    | cons y ys => simp at hlen
  | cons x xs ih =>
    intro b hlen hsum
    cases b with
    | nil => simp at hlen
    | cons y ys =>
      have hlen' : xs.length = ys.length := by simpa using hlen
      have hunf : sum_of_squares (x :: xs) (y :: ys) =
          (x - y) * (x - y) + sum_of_squares xs ys := by
        simp [sum_of_squares]
      rw [hunf] at hsum
      have h1 : 0 ≤ (x - y) * (x - y) := mul_self_nonneg _
      have h2 : 0 ≤ sum_of_squares xs ys := sum_of_squares_nonneg xs ys
      have hx : (x - y) * (x - y) = 0 := by linarith
      have hxs : sum_of_squares xs ys = 0 := by linarith
      have : x = y := by
        have := mul_self_eq_zero.mp hx
        linarith [sub_eq_zero.mp this]
      rw [this, ih hlen' hxs]

theorem sum_of_squares_ne_zero_of_ne (a b : Vec) (hlen : a.length = b.length)
    (hne : a ≠ b) : sum_of_squares a b ≠ 0 := by
  intro h
  exact hne (sum_of_squares_eq_zero hlen h)

/-- Pigeonhole: a duplicate-free list of indices below N that is shorter
than N misses some index below N. -/
theorem exists_unchosen (chosen : List Nat) (N : Nat) (hnd : chosen.Nodup)
    (hlen : chosen.length < N) :
    ∃ j, j < N ∧ j ∉ chosen := by
  by_contra h
  push_neg at h
  have hsub : Finset.range N ⊆ chosen.toFinset := by
    intro j hj
    rw [Finset.mem_range] at hj
    rw [List.mem_toFinset]
    exact h j hj
  have hcard := Finset.card_le_card hsub
  rw [Finset.card_range, List.toFinset_card_of_nodup hnd] at hcard
  omega

/-- The invariant of the kmeans++ round loop. -/
def PPInv (train : List Vec) (choice : Nat)
    (st : List Vec × DistArr × List Nat) : Prop :=
  st.2.2 ≠ [] ∧ st.2.2.Nodup ∧ (∀ j ∈ st.2.2, j < train.length) ∧
  st.1 = st.2.2.map (fun ix => train.getD ix []) ∧
  st.2.1.length = train.length ∧
  (∀ o ∈ st.2.1, o = none ∨ ∃ v, o = some v ∧ 0 ≤ v) ∧
  (∀ j, j < train.length → j ∉ st.2.2 → st.2.1.getD j none ≠ some 0) ∧
  (∀ j ∈ st.2.2, st.2.1.getD j none = some 0 ∨
    (st.2.2 = [choice] ∧ j = choice))

theorem getLastD_mem {α : Type} :
    ∀ (l : List α) (d : α), l ≠ [] → l.getLastD d ∈ l := by
  intro l
  induction l with
  | nil => intro d h; exact absurd rfl h
  | cons a t ih =>
    intro d _
    cases t with
    | nil => simp
    | cons b t2 =>
      have := ih a (by simp)
      rw [List.getLastD_cons]
      exact List.mem_cons_of_mem a this

theorem getLastD_map {α β : Type} (f : α → β) :
    ∀ (l : List α) (d : β) (d' : α), l ≠ [] →
      (l.map f).getLastD d = f (l.getLastD d') := by
  intro l
  induction l with
  | nil => intro d d' h; exact absurd rfl h
  | cons a t ih =>
    intro d d' _
    cases t with
    | nil => simp
    | cons b t2 =>
      rw [show (a :: b :: t2).map f = f a :: (b :: t2).map f from rfl]
      rw [List.getLastD_cons, List.getLastD_cons]
      exact ih (f a) a (by simp)

theorem getD_set_self {α : Type} (l : List α) (i : Nat) (a d : α)
    (h : i < l.length) : (l.set i a).getD i d = a := by
  rw [List.getD_eq_getElem?_getD, List.getElem?_set_self h]
  rfl

theorem getD_set_ne {α : Type} (l : List α) (i j : Nat) (a d : α)
    (h : i ≠ j) : (l.set i a).getD j d = l.getD j d := by
  rw [List.getD_eq_getElem?_getD, List.getElem?_set_ne h,
    ← List.getD_eq_getElem?_getD]

theorem kmeansPPStep_inv (train : List Vec) (dim choice : Nat)
    (draw : DistArr → Nat)
    (hdistinct : train.Nodup)
    (hdim : ∀ v ∈ train, v.length = dim)
    (hdraw : DrawOk train.length draw)
    (st : List Vec × DistArr × List Nat)
    (hinv : PPInv train choice st)
    (hroom : st.2.2.length < train.length) :
    PPInv train choice (kmeansPPStep train draw st) ∧
    (kmeansPPStep train draw st).2.2.length = st.2.2.length + 1 := by
  obtain ⟨cent, dists, chosen⟩ := st
  obtain ⟨h1, h2, h3, h4, h5, h6, h7, h8⟩ := hinv
  simp only [] at h1 h2 h3 h4 h5 h6 h7 h8 hroom
  unfold kmeansPPStep
  simp only []
  set N := train.length with hN
  set c := cent.getLastD [] with hc
  set dists1 := (train.zip dists).map
    (fun td => updMin td.2 (sum_of_squares td.1 c)) with hd1def
  -- the newest centroid is the training column of the last chosen index
  set lastc := chosen.getLastD 0 with hlastc
  have hlastmem : lastc ∈ chosen := getLastD_mem chosen 0 h1
  have hlastN : lastc < N := h3 lastc hlastmem
  have hcval : c = train.getD lastc [] := by
    rw [hc, h4]
    exact getLastD_map _ chosen [] 0 h1
  have hd1len : dists1.length = N := by
    rw [hd1def]
    simp [List.length_zip, h5]
  -- pointwise characterization of the updated weights
  have hd1 : ∀ j, j < N → dists1.getD j none =
      updMin (dists.getD j none)
        (sum_of_squares (train.getD j []) c) := by
    intro j hj
    have hjd : j < dists.length := by rw [h5]; exact hj
    have hz : (train.zip dists)[j]? =
        some (train[j], dists[j]) := by
      apply List.getElem?_zip_eq_some.mpr
      exact ⟨List.getElem?_eq_getElem hj, List.getElem?_eq_getElem hjd⟩
    have : dists1[j]? = some (updMin dists[j]
        (sum_of_squares train[j] c)) := by
      rw [hd1def, List.getElem?_map, hz]
      rfl
    rw [List.getD_eq_getElem?_getD, this]
    rw [show train.getD j [] = train[j] by
      rw [List.getD_eq_getElem?_getD, List.getElem?_eq_getElem hj]; rfl]
    rw [show dists.getD j none = dists[j] by
      rw [List.getD_eq_getElem?_getD, List.getElem?_eq_getElem hjd]; rfl]
    rfl
  -- every already-chosen index has weight zero after the update
  have hch0 : ∀ j ∈ chosen, dists1.getD j none = some 0 := by
    intro j hj
    have hjN : j < N := h3 j hj
    rw [hd1 j hjN]
    rcases h8 j hj with heq | ⟨hch, hjc⟩
    · rw [heq]
      unfold updMin
      simp only []
      congr 1
      exact min_eq_left (sum_of_squares_nonneg _ _)
    · subst hjc
      have hlc : lastc = j := by
        rw [hlastc, hch]
        rfl
      rw [hcval, hlc, sum_of_squares_self]
      rcases hdo : dists.getD j none with _ | v
      · rfl
      · have hv : 0 ≤ v := by
          have hjd : j < dists.length := by rw [h5]; exact hjN
          have hmem : dists.getD j none ∈ dists := by
            rw [List.getD_eq_getElem?_getD, List.getElem?_eq_getElem hjd]
            exact List.getElem_mem hjd
          rw [hdo] at hmem
          rcases h6 _ hmem with h | ⟨w, hw, hw0⟩
          · exact absurd h (by simp)
          · have : v = w := by injection hw
            rw [this]
            exact hw0
        unfold updMin
        simp only []
        congr 1
        exact min_eq_right hv
  -- every unchosen index keeps a nonzero weight after the update
  have hun : ∀ j, j < N → j ∉ chosen → dists1.getD j none ≠ some 0 := by
    intro j hjN hjc
    rw [hd1 j hjN]
    have hjne : j ≠ lastc := fun h => hjc (h ▸ hlastmem)
    have hlen1 : (train.getD j []).length = (train.getD lastc []).length := by
      have m1 : train.getD j [] ∈ train := by
        rw [List.getD_eq_getElem?_getD, List.getElem?_eq_getElem hjN]
        exact List.getElem_mem hjN
      have m2 : train.getD lastc [] ∈ train := by
        rw [List.getD_eq_getElem?_getD, List.getElem?_eq_getElem hlastN]
        exact List.getElem_mem hlastN
      rw [hdim _ m1, hdim _ m2]
    have hvne : train.getD j [] ≠ train.getD lastc [] := by
      intro h
      apply hjne
      rw [List.getD_eq_getElem?_getD, List.getElem?_eq_getElem hjN] at h
      rw [List.getD_eq_getElem?_getD, List.getElem?_eq_getElem hlastN] at h
      exact (List.Nodup.getElem_inj_iff hdistinct).mp h
    have hdpos : sum_of_squares (train.getD j []) c ≠ 0 := by
      rw [hcval]
      exact sum_of_squares_ne_zero_of_ne _ _ hlen1 hvne
    have hdnn : 0 ≤ sum_of_squares (train.getD j []) c :=
      sum_of_squares_nonneg _ _
    rcases hdo : dists.getD j none with _ | v
    · unfold updMin
      intro h
      exact hdpos (by injection h)
    · have hv0 : v ≠ 0 := by
        intro hv
        exact h7 j hjN hjc (by rw [hdo, hv])
      have hvnn : 0 ≤ v := by
        have hjd : j < dists.length := by rw [h5]; exact hjN
        have hmem : dists.getD j none ∈ dists := by
          rw [List.getD_eq_getElem?_getD, List.getElem?_eq_getElem hjd]
          exact List.getElem_mem hjd
        rw [hdo] at hmem
        rcases h6 _ hmem with h | ⟨w, hw, hw0⟩
        · exact absurd h (by simp)
        · have : v = w := by injection hw
          rw [this]
          exact hw0
      unfold updMin
      intro h
      have hmin : min v (sum_of_squares (train.getD j []) c) = 0 := by
        injection h
      rcases min_cases v (sum_of_squares (train.getD j []) c) with
        ⟨hm, _⟩ | ⟨hm, _⟩
      · exact hv0 (hm ▸ hmin)
      · exact hdpos (hm ▸ hmin)
  -- the draw contract applies and returns a fresh index
  obtain ⟨jfree, hjfreeN, hjfreec⟩ := exists_unchosen chosen N h2 hroom
  obtain ⟨hnextN, hnext0⟩ := hdraw dists1 hd1len
    ⟨jfree, hjfreeN, hun jfree hjfreeN hjfreec⟩
  set next := draw dists1 with hnext
  have hnextc : next ∉ chosen := by
    intro h
    exact hnext0 (hch0 next h)
  -- reassemble the invariant
  refine ⟨⟨by simp, ?_, ?_, ?_, ?_, ?_, ?_, ?_⟩, by simp⟩
  · rw [List.nodup_append]
    exact ⟨h2, List.nodup_singleton next, by
      intro a ha hb
      simp only [List.mem_singleton] at hb
      exact hnextc (hb ▸ ha)⟩
  · intro j hj
    rcases List.mem_append.mp hj with h | h
    · exact h3 j h
    · simp only [List.mem_singleton] at h
      rw [h]
      exact hnextN
  · rw [h4, List.map_append]
    rfl
  · simp only [List.length_set]
    exact hd1len
  · intro o ho
    rcases List.mem_or_eq_of_mem_set ho with h | h
    · rw [hd1def] at h
      rcases List.mem_map.mp h with ⟨td, htd, hupd⟩
      have htd2 : td.2 ∈ dists := (List.of_mem_zip htd).2
      rcases h6 _ htd2 with hn | ⟨v, hv, hv0⟩
      · right
        refine ⟨sum_of_squares td.1 c, ?_, sum_of_squares_nonneg _ _⟩
        rw [← hupd, hn]
        rfl
      · right
        refine ⟨min v (sum_of_squares td.1 c), ?_, ?_⟩
        · rw [← hupd, hv]
          rfl
        · exact le_min hv0 (sum_of_squares_nonneg _ _)
    · right
      exact ⟨0, h, le_refl 0⟩
  · intro j hjN hjc
    have hjnext : j ≠ next := by
      intro h
      exact hjc (by rw [h]; exact List.mem_append.mpr (Or.inr (by simp)))
    have hjch : j ∉ chosen := by
      intro h
      exact hjc (List.mem_append.mpr (Or.inl h))
    rw [getD_set_ne _ _ _ _ _ (fun h => hjnext h.symm)]
    exact hun j hjN hjch
  · intro j hj
    left
    rcases List.mem_append.mp hj with h | h
    · have hjnext : next ≠ j := by
        intro he
        exact hnextc (he ▸ h)
      rw [getD_set_ne _ _ _ _ _ hjnext]
      exact hch0 j h
    · simp only [List.mem_singleton] at h
      rw [h]
      apply getD_set_self
      rw [hd1len]
      exact hnextN

theorem PPInv_init (train : List Vec) (choice : Nat)
    (hchoice : choice < train.length) :
    PPInv train choice
      ([train.getD choice []], List.replicate train.length none, [choice]) := by
  refine ⟨by simp, by simp, ?_, by simp, by simp, ?_, ?_, ?_⟩
  · intro j hj
    simp only [List.mem_singleton] at hj
    rw [hj]
    exact hchoice
  · intro o ho
    left
    exact List.eq_of_mem_replicate ho
  · intro j _ _
    rw [List.getD_eq_getElem?_getD, List.getElem?_replicate]
    split <;> simp
  · intro j hj
    right
    simp only [List.mem_singleton] at hj
    exact ⟨rfl, hj⟩

theorem kmeansPPRounds_inv (train : List Vec) (dim choice : Nat)
    (draw : DistArr → Nat)
    (hdistinct : train.Nodup)
    (hdim : ∀ v ∈ train, v.length = dim)
    (hdraw : DrawOk train.length draw) :
    ∀ (n : Nat) (st : List Vec × DistArr × List Nat),
      PPInv train choice st → st.2.2.length + n ≤ train.length →
      PPInv train choice (kmeansPPRounds train draw n st) ∧
      (kmeansPPRounds train draw n st).2.2.length = st.2.2.length + n := by
  intro n
  induction n with
  | zero => intro st h _; exact ⟨h, rfl⟩
  | succ m ih =>
    intro st hinv hle
    unfold kmeansPPRounds
    have hroom : st.2.2.length < train.length := by omega
    obtain ⟨hstep, hsteplen⟩ := kmeansPPStep_inv train dim choice draw
      hdistinct hdim hdraw st hinv hroom
    obtain ⟨hi1, hi2⟩ := ih (kmeansPPStep train draw st) hstep (by omega)
    refine ⟨hi1, ?_⟩
    rw [hi2, hsteplen]
    omega

/-- C7: for every training set of pairwise-distinct equal-dimension
vectors, K between 1 and N, every first uniform choice, and every
weighted draw satisfying the discrete_distribution contract, kmeans_pp
picks K distinct training indices, every centroid is the training vector
of its picked index, no two centroids are identical, and (once the
weighted rounds have run) every picked index has its sampling weight set
to 0, so it cannot be chosen again. -/
theorem c7_kmeans_pp_distinct (train : List Vec) (dim K choice : Nat)
    (draw : DistArr → Nat)
    (hdistinct : train.Nodup)
    (hdim : ∀ v ∈ train, v.length = dim)
    (hK1 : 1 ≤ K) (hKN : K ≤ train.length)
    (hchoice : choice < train.length)
    (hdraw : DrawOk train.length draw) :
    (kmeans_pp_aux train draw choice K).2.2.length = K ∧
    (kmeans_pp_aux train draw choice K).2.2.Nodup ∧
    (∀ j ∈ (kmeans_pp_aux train draw choice K).2.2, j < train.length) ∧
    kmeans_pp train draw choice K =
      (kmeans_pp_aux train draw choice K).2.2.map
        (fun ix => train.getD ix []) ∧
    (kmeans_pp train draw choice K).Nodup ∧
    (2 ≤ K → ∀ j ∈ (kmeans_pp_aux train draw choice K).2.2,
      (kmeans_pp_aux train draw choice K).2.1.getD j none = some 0) := by
  have hinit := PPInv_init train choice hchoice
  obtain ⟨hfin, hlen⟩ := kmeansPPRounds_inv train dim choice draw
    hdistinct hdim hdraw (K - 1)
    ([train.getD choice []], List.replicate train.length none, [choice])
    hinit
    (by simp only [List.length_singleton]; omega)
  obtain ⟨f1, f2, f3, f4, f5, f6, f7, f8⟩ := hfin
  have hauxlen : (kmeansPPRounds train draw (K - 1)
      ([train.getD choice []], List.replicate train.length none,
        [choice])).2.2.length = K := by
    rw [hlen]
    simp only [List.length_singleton]
    omega
  simp only [kmeans_pp, kmeans_pp_aux]
  refine ⟨hauxlen, f2, f3, f4, ?_, ?_⟩
  · rw [f4]
    apply List.Nodup.map_on ?_ f2
    intro x hx y hy hxy
    have hxN := f3 x hx
    have hyN := f3 y hy
    rw [List.getD_eq_getElem?_getD, List.getElem?_eq_getElem hxN] at hxy
    rw [List.getD_eq_getElem?_getD, List.getElem?_eq_getElem hyN] at hxy
    simp only [Option.getD_some] at hxy
    exact (List.Nodup.getElem_inj_iff hdistinct).mp hxy
  · intro hK2 j hj
    rcases f8 j hj with h | ⟨hch, _⟩
    · exact h
    · exfalso
      rw [hch] at hauxlen
      simp only [List.length_singleton] at hauxlen
      omega

/-- A concrete deterministic draw obeying the discrete_distribution
contract: the first index whose weight is not zero. -/
def drawFirst (ws : DistArr) : Nat :=
  ws.findIdx (fun o => o != some 0)

theorem findIdx_getD_prop {α : Type} (p : α → Bool) (d : α) :
    ∀ (l : List α), l.findIdx p < l.length →
      p (l.getD (l.findIdx p) d) = true := by
  intro l
  induction l with
  | nil => intro h; simp at h
  | cons a t ih =>
    intro h
    by_cases hpa : p a
    · rw [List.findIdx_cons]
      simp [hpa]
    · rw [List.findIdx_cons] at h ⊢
      simp only [hpa, cond_false] at h ⊢
      have ht : t.findIdx p < t.length := by simpa using h
      have := ih ht
      simpa using this

theorem drawFirst_ok (N : Nat) : DrawOk N drawFirst := by
  intro ws hlen hex
  obtain ⟨j, hjN, hj0⟩ := hex
  have hjl : j < ws.length := by rw [hlen]; exact hjN
  have hgetD : ws.getD j none = ws[j] := by
    rw [List.getD_eq_getElem?_getD, List.getElem?_eq_getElem hjl]
    rfl
  have hmem : ∃ x ∈ ws, (fun o => o != some 0) x = true := by
    refine ⟨ws[j], List.getElem_mem hjl, ?_⟩
    rw [hgetD] at hj0
    simpa using hj0
  have hfound : ws.findIdx (fun o => o != some 0) < ws.length :=
    List.findIdx_lt_length_of_exists hmem
  refine ⟨by rw [← hlen]; exact hfound, ?_⟩
  have hsat := findIdx_getD_prop (fun o => o != some 0) none ws hfound
  unfold drawFirst
  simpa using hsat

/-- A concrete training set for the C7 witness: three pairwise-distinct
one-dimensional vectors. -/
def c7train : List Vec := [[0], [1], [2]]

/-- Witness for C7 at the concrete training set, K = 2, first choice 0,
and the first-nonzero-weight draw. -/
theorem c7_kmeans_pp_distinct_witness :
    (c7train.Nodup ∧ (∀ v ∈ c7train, v.length = 1) ∧ 1 ≤ 2 ∧
      2 ≤ c7train.length ∧ 0 < c7train.length ∧
      DrawOk c7train.length drawFirst) ∧
    ((kmeans_pp_aux c7train drawFirst 0 2).2.2.length = 2 ∧
      (kmeans_pp_aux c7train drawFirst 0 2).2.2.Nodup ∧
      (∀ j ∈ (kmeans_pp_aux c7train drawFirst 0 2).2.2, j < c7train.length) ∧
      kmeans_pp c7train drawFirst 0 2 =
        (kmeans_pp_aux c7train drawFirst 0 2).2.2.map
          (fun ix => c7train.getD ix []) ∧
      (kmeans_pp c7train drawFirst 0 2).Nodup ∧
      (2 ≤ 2 → ∀ j ∈ (kmeans_pp_aux c7train drawFirst 0 2).2.2,
        (kmeans_pp_aux c7train drawFirst 0 2).2.1.getD j none = some 0)) :=
  ⟨⟨by decide, by decide, by decide, by decide, by decide, drawFirst_ok _⟩,
    c7_kmeans_pp_distinct c7train 1 2 0 drawFirst (by decide) (by decide)
      (by decide) (by decide) (by decide) (drawFirst_ok _)⟩

end TVS
